import Mathlib

/-!
Verification of the recache library (bakape/recache): a shallow embedding of
the frame-descriptor algebra, cache state machine, record writer, record
streaming and eviction scheduler, with theorems checking the specification
claims against the embedded code.

Sources embedded here (current snapshot of the repository):
* `deflate.go` / `unnamed/part_014` — `frameDescriptor` and `Append`
* `unnamed/part_004`                — `Cache`: `getRecord`, `setUsedMemory`,
                                      `evictWithLock`, registry
* `frontend.go`                     — `populate`, `getGeneratedRecord`,
                                      `WriteHTTP`
* `writer.go`                       — `RecordWriter`: `Write`, `Include`,
                                      `flush`, `append`
* `record.go`                       — `Record.WriteTo`, `Record.NewReader`,
                                      `recordReader.Read`
* `eviction.go`                     — eviction scheduler loop
Machine integers (`uint32`) are modelled as `Nat` with explicit `% 2^32`
where overflow is possible; where an intermediate provably fits in 32 bits
no reduction is written, mirroring the overflow-free Go computation.
-/

namespace Recache

/-! ## Frame algebra (`deflate.go`)

`frameDescriptor` carries the Adler-32 checksum and the uncompressed size of
one deflate frame.  `size` is a `uint32` in Go and is represented reduced
modulo `2^32`. -/

structure FrameDescriptor where
  checksum : Nat
  size : Nat
deriving DecidableEq, Repr

/-- One step of the Adler-32 recurrence (`hash/adler32`): both halves are
reduced modulo 65521 at every byte. -/
def adlerStep (p : Nat × Nat) (b : Nat) : Nat × Nat :=
  let s1 := (p.1 + b) % 65521
  (s1, (p.2 + s1) % 65521)

/-- Running the Adler-32 recurrence over a byte list from a given state. -/
def adlerPair (l : List Nat) (p : Nat × Nat) : Nat × Nat :=
  l.foldl adlerStep p

/-- Adler-32 checksum of a byte sequence, as computed by `hash/adler32`:
low 16 bits are `s1`, high 16 bits are `s2`. -/
def adler32 (l : List Nat) : Nat :=
  let p := adlerPair l (1, 0)
  p.2 * 65536 + p.1

/-- The frame descriptor of a raw byte sequence: wrapped `uint32` length and
Adler-32 checksum.  This is what the record writer accumulates per frame
(`writer.go`: `rw.current.size += uint32(n)` and the Adler hasher). -/
def desc (l : List Nat) : FrameDescriptor :=
  { checksum := adler32 l, size := l.length % 2 ^ 32 }

/-- `frameDescriptor.Append` from `deflate.go`.  All `uint32` intermediates
except the size addition provably stay below `2^32` (`rem < 65521`,
`sum1 ≤ 65535`, so `rem * sum1 < 2^32`), so only `size` carries an explicit
wrap.  `x & 0xffff` is written `x % 65536`, `x >> 16` is `x / 65536`, and the
final `sum1 | (sum2 << 16)` combines disjoint halves, written as addition. -/
def fdAppend (f rhs : FrameDescriptor) : FrameDescriptor :=
  let size := (f.size + rhs.size) % 2 ^ 32
  let rem := rhs.size % 65521
  let sum1 := f.checksum % 65536
  let sum2 := (rem * sum1) % 65521
  let sum1 := sum1 + rhs.checksum % 65536 + 65521 - 1
  let sum2 := sum2 + f.checksum / 65536 % 65536 + rhs.checksum / 65536 % 65536 +
    65521 - rem
  let sum1 := if sum1 ≥ 65521 then sum1 - 65521 else sum1
  let sum1 := if sum1 ≥ 65521 then sum1 - 65521 else sum1
  let sum2 := if sum2 ≥ 65521 * 2 then sum2 - 65521 * 2 else sum2
  let sum2 := if sum2 ≥ 65521 then sum2 - 65521 else sum2
  { checksum := sum1 + sum2 * 65536, size := size }

/-- Positional weight of a byte list: `Σ (n - i) * l[i]`, the unreduced `s2`
contribution of the bytes. -/
def adlerWeight : List Nat → Nat
  | [] => 0
  | b :: t => (t.length + 1) * b + adlerWeight t

example : adler32 [] = 1 := by decide

example : adler32 [97, 98, 99] = 0x024d0127 := by decide

theorem adlerPair_append (a b : List Nat) (p : Nat × Nat) :
    adlerPair (a ++ b) p = adlerPair b (adlerPair a p) :=
  List.foldl_append _ _ _ _

theorem adlerPair_closed (l : List Nat) (x y : Nat) (hx : x < 65521)
    (hy : y < 65521) :
    adlerPair l (x, y) =
      ((x + l.sum) % 65521, (y + l.length * x + adlerWeight l) % 65521) := by
  induction l generalizing x y with
  | nil =>
    simp [adlerPair, adlerWeight, Nat.mod_eq_of_lt hx, Nat.mod_eq_of_lt hy]
  | cons b t ih =>
    show adlerPair t (adlerStep (x, y) b) = _
    rw [show adlerStep (x, y) b = ((x + b) % 65521, (y + (x + b) % 65521) % 65521)
      from rfl]
    rw [ih _ _ (Nat.mod_lt _ (by norm_num)) (Nat.mod_lt _ (by norm_num))]
    refine Prod.ext ?_ ?_
    · show ((x + b) % 65521 + t.sum) % 65521 = (x + (b :: t).sum) % 65521
      simp only [List.sum_cons]
      omega
    · show ((y + (x + b) % 65521) % 65521 + t.length * ((x + b) % 65521) +
        adlerWeight t) % 65521 =
        (y + (b :: t).length * x + adlerWeight (b :: t)) % 65521
      simp only [List.length_cons, adlerWeight]
      have h1 : (x + b) % 65521 ≡ x + b [MOD 65521] := Nat.mod_modEq _ _
      have h2 : (y + (x + b) % 65521) % 65521 + t.length * ((x + b) % 65521) +
          adlerWeight t ≡
          y + (x + b) + t.length * (x + b) + adlerWeight t [MOD 65521] := by
        refine Nat.ModEq.add_right _ (Nat.ModEq.add ?_ ?_)
        · exact (Nat.mod_modEq _ _).trans (Nat.ModEq.add_left _ h1)
        · exact h1.mul_left _
      have h3 : y + (x + b) + t.length * (x + b) + adlerWeight t =
          y + (t.length + 1) * x + ((t.length + 1) * b + adlerWeight t) := by
        ring
      exact h2.trans (by rw [h3])

theorem adler32_closed (l : List Nat) :
    adler32 l =
      ((l.length + adlerWeight l) % 65521) * 65536 + (1 + l.sum) % 65521 := by
  unfold adler32
  rw [adlerPair_closed l 1 0 (by norm_num) (by norm_num)]
  simp [Nat.mul_one]

theorem adlerWeight_append (A B : List Nat) :
    adlerWeight (A ++ B) = adlerWeight A + B.length * A.sum + adlerWeight B := by
  induction A with
  | nil => simp [adlerWeight]
  | cons a t ih =>
    simp only [List.cons_append, adlerWeight, List.length_append, List.sum_cons,
      List.append_eq, ih]
    ring

theorem adler32_lt (l : List Nat) : adler32 l < 2 ^ 32 := by
  rw [adler32_closed]
  have h1 := Nat.mod_lt (l.length + adlerWeight l) (show 0 < 65521 by norm_num)
  have h2 := Nat.mod_lt (1 + l.sum) (show 0 < 65521 by norm_num)
  omega

/-- Claim C1 (amended): `frameDescriptor.Append` agrees with the direct
descriptor of the concatenation whenever the right-hand sequence is shorter
than `2^32` bytes, so that its stored `uint32` size is exact.  The resulting
size is the wrapped sum in all cases. -/
theorem fdAppend_desc (A B : List Nat) (hB : B.length < 2 ^ 32) :
    fdAppend (desc A) (desc B) = desc (A ++ B) := by
  have hm : 0 < 65521 := by norm_num
  have hA1 : (1 + A.sum) % 65521 < 65521 := Nat.mod_lt _ hm
  have hA2 : (A.length + adlerWeight A) % 65521 < 65521 := Nat.mod_lt _ hm
  have hB1 : (1 + B.sum) % 65521 < 65521 := Nat.mod_lt _ hm
  have hB2 : (B.length + adlerWeight B) % 65521 < 65521 := Nat.mod_lt _ hm
  unfold fdAppend desc
  rw [adler32_closed A, adler32_closed B, adler32_closed (A ++ B)]
  simp only [List.length_append, List.sum_append, adlerWeight_append,
    Nat.mod_eq_of_lt hB]
  set x1 := (1 + A.sum) % 65521 with hx1
  set x2 := (A.length + adlerWeight A) % 65521 with hx2
  set y1 := (1 + B.sum) % 65521 with hy1
  set y2 := (B.length + adlerWeight B) % 65521 with hy2
  have e1 : (x2 * 65536 + x1) % 65536 = x1 := by omega
  have e2 : (x2 * 65536 + x1) / 65536 % 65536 = x2 := by omega
  have e3 : (y2 * 65536 + y1) % 65536 = y1 := by omega
  have e4 : (y2 * 65536 + y1) / 65536 % 65536 = y2 := by omega
  rw [e1, e2, e3, e4]
  have q2 : (B.length % 65521 * x1) % 65521 < 65521 := Nat.mod_lt _ hm
  have r2 : B.length % 65521 < 65521 := Nat.mod_lt _ hm
  refine congrArg₂ FrameDescriptor.mk ?_ (by omega)
  have c1 : (if (if x1 + y1 + 65521 - 1 ≥ 65521 then x1 + y1 + 65521 - 1 - 65521
        else x1 + y1 + 65521 - 1) ≥ 65521
      then (if x1 + y1 + 65521 - 1 ≥ 65521 then x1 + y1 + 65521 - 1 - 65521
        else x1 + y1 + 65521 - 1) - 65521
      else (if x1 + y1 + 65521 - 1 ≥ 65521 then x1 + y1 + 65521 - 1 - 65521
        else x1 + y1 + 65521 - 1)) = (x1 + y1 + 65521 - 1) % 65521 := by
    split_ifs <;> omega
  set s2in := (B.length % 65521 * x1) % 65521 + x2 + y2 + 65521 - B.length % 65521
    with hs2in
  have c2 : (if (if s2in ≥ 65521 * 2 then s2in - 65521 * 2 else s2in) ≥ 65521
      then (if s2in ≥ 65521 * 2 then s2in - 65521 * 2 else s2in) - 65521
      else (if s2in ≥ 65521 * 2 then s2in - 65521 * 2 else s2in)) =
      s2in % 65521 := by
    split_ifs <;> omega
  rw [c1, c2]
  have g1 : (x1 + y1 + 65521 - 1) % 65521 = (1 + (A.sum + B.sum)) % 65521 := by
    omega
  have g2 : s2in % 65521 =
      (A.length + B.length +
        (adlerWeight A + B.length * A.sum + adlerWeight B)) % 65521 := by
    show Nat.ModEq 65521 s2in _
    have t1 : B.length % 65521 * x1 ≡ B.length * (1 + A.sum) [MOD 65521] :=
      (Nat.mod_modEq _ _).mul (Nat.mod_modEq _ _)
    have t2 : (B.length % 65521 * x1) % 65521 ≡ B.length * (1 + A.sum)
        [MOD 65521] := (Nat.mod_modEq _ _).trans t1
    have t3 : x2 ≡ A.length + adlerWeight A [MOD 65521] := Nat.mod_modEq _ _
    have t4 : y2 ≡ B.length + adlerWeight B [MOD 65521] := Nat.mod_modEq _ _
    refine Nat.ModEq.add_right_cancel' (B.length % 65521) ?_
    have hrew : s2in + B.length % 65521 =
        (B.length % 65521 * x1) % 65521 + x2 + y2 + 65521 := by omega
    rw [hrew]
    calc (B.length % 65521 * x1) % 65521 + x2 + y2 + 65521
        ≡ B.length * (1 + A.sum) + (A.length + adlerWeight A) +
            (B.length + adlerWeight B) + 65521 [MOD 65521] :=
          ((t2.add t3).add t4).add_right _
      _ = (A.length + B.length +
            (adlerWeight A + B.length * A.sum + adlerWeight B)) +
            (B.length + 65521) := by ring
      _ ≡ (A.length + B.length +
            (adlerWeight A + B.length * A.sum + adlerWeight B)) +
            B.length % 65521 [MOD 65521] := by
          refine Nat.ModEq.add_left _ ?_
          calc B.length + 65521 ≡ B.length + 0 [MOD 65521] :=
              Nat.ModEq.add_left _ (Nat.modEq_zero_iff_dvd.mpr dvd_rfl)
            _ = B.length := by omega
            _ ≡ B.length % 65521 [MOD 65521] := (Nat.mod_modEq _ _).symm
  rw [g1, g2]
  omega

theorem adlerWeight_replicate_zero (n : Nat) :
    adlerWeight (List.replicate n 0) = 0 := by
  induction n with
  | zero => rfl
  | succ k ih => simp [List.replicate_succ, adlerWeight, ih]

theorem sum_replicate_zero (n : Nat) : (List.replicate n (0 : Nat)).sum = 0 := by
  induction n with
  | zero => rfl
  | succ k ih => simp [List.replicate_succ, ih]

theorem listSum_append (A B : List Nat) : (A ++ B).sum = A.sum + B.sum := by
  induction A with
  | nil => simp
  | cons a t ih => simp only [List.cons_append, List.sum_cons, ih]; omega

/-- Claim C1 counterexample: for a right-hand sequence of exactly `2^32`
bytes the stored `uint32` size wraps to 0, the combine recurrence uses the
wrong length residue (`2^32 % 65521 = 225 ≠ 0`), and the combined checksum
differs from the directly computed Adler-32 of the concatenation. -/
theorem fdAppend_desc_cex :
    fdAppend (desc [1]) (desc (List.replicate (2 ^ 32) 0)) ≠
      desc ([1] ++ List.replicate (2 ^ 32) 0) := by
  have h1 : desc (List.replicate (2 ^ 32) 0) =
      { checksum := 225 * 65536 + 1, size := 0 } := by
    unfold desc
    rw [adler32_closed, adlerWeight_replicate_zero, sum_replicate_zero,
      List.length_replicate]
    simp only [FrameDescriptor.mk.injEq]
    constructor <;> norm_num
  have h2 : desc ([1] ++ List.replicate (2 ^ 32) 0) =
      { checksum := 452 * 65536 + 2, size := 1 } := by
    unfold desc
    rw [adler32_closed]
    rw [List.length_append, listSum_append, adlerWeight_append,
      adlerWeight_replicate_zero, sum_replicate_zero, List.length_replicate]
    simp only [FrameDescriptor.mk.injEq, adlerWeight, List.length_nil,
      List.sum_cons, List.sum_nil, List.length_cons]
    constructor <;> norm_num
  have h0 : desc [1] = { checksum := 2 * 65536 + 2, size := 1 } := by
    unfold desc
    rw [adler32_closed]
    norm_num [adlerWeight]
  have h3 : fdAppend { checksum := 2 * 65536 + 2, size := 1 }
      { checksum := 225 * 65536 + 1, size := 0 } =
      { checksum := 2 + 227 * 65536, size := 1 } := by
    simp only [fdAppend]
    norm_num
  rw [h0, h1, h2, h3]
  simp only [ne_eq, FrameDescriptor.mk.injEq]
  norm_num

/-- Witness for the amended claim C1 at concrete inputs. -/
theorem fdAppend_desc_witness :
    ([3, 4] : List Nat).length < 2 ^ 32 ∧
      fdAppend (desc [1, 2]) (desc [3, 4]) = desc ([1, 2] ++ [3, 4]) :=
  ⟨by norm_num, fdAppend_desc [1, 2] [3, 4] (by norm_num)⟩

/-! ## Cache state (`unnamed/part_004`, `eviction.go`)

Keys are modelled as `Nat` (`Key` is any Go map key; only equality is used).
Record pointer identity (`*record`) is modelled by a unique `recId` drawn
from a counter, and `time.Time` by a `Nat` tick.  The per-frontend bucket
maps `buckets[frontend][key]` are flattened into one association list keyed
by `recordLocation`, and the LRU linked list into a list of locations with
the front at the head (`linkedList` stores locations, `unnamed/part_010`). -/

/-- `recordLocation`: a record's location within one cache. -/
structure recordLocation where
  frontend : Nat
  key : Nat
deriving DecidableEq, Repr

/-- `intercacheRecordLocation`: a record's location across all caches. -/
structure intercacheRecordLocation where
  cache : Nat
  loc : recordLocation
deriving DecidableEq, Repr

/-- `recordWithMeta`: bucket entry metadata.  The record value itself
(semaphore, components, population error) lives outside the cache lock and
is modelled separately; here only its pointer identity `recId` is kept. -/
structure recordWithMeta where
  recId : Nat
  memoryUsed : Nat
  lastUsed : Nat
  includedIn : List intercacheRecordLocation
deriving DecidableEq, Repr

/-- `Cache`: all state guarded by the per-cache mutex. -/
structure CacheState where
  id : Nat
  memoryLimit : Nat
  lruLimit : Nat
  buckets : List (recordLocation × recordWithMeta)
  lruList : List recordLocation
  memoryUsed : Int
  nextRecId : Nat
deriving DecidableEq, Repr

/-- Bucket lookup: `c.buckets[loc.frontend][loc.key]` (`Cache.record`). -/
def bucketFind (b : List (recordLocation × recordWithMeta))
    (loc : recordLocation) : Option recordWithMeta :=
  match b with
  | [] => none
  | e :: t => if e.1 = loc then some e.2 else bucketFind t loc

/-- Bucket deletion: `delete(c.buckets[loc.frontend], loc.key)`. -/
def bucketErase (b : List (recordLocation × recordWithMeta))
    (loc : recordLocation) : List (recordLocation × recordWithMeta) :=
  match b with
  | [] => []
  | e :: t => if e.1 = loc then t else e :: bucketErase t loc

/-- Bucket assignment: `c.buckets[loc.frontend][loc.key] = rec`. -/
def bucketSet (b : List (recordLocation × recordWithMeta))
    (loc : recordLocation) (m : recordWithMeta) :
    List (recordLocation × recordWithMeta) :=
  match b with
  | [] => [(loc, m)]
  | e :: t => if e.1 = loc then (loc, m) :: t else e :: bucketSet t loc m

theorem mem_of_bucketFind_some {b : List (recordLocation × recordWithMeta)}
    {loc : recordLocation} {m : recordWithMeta}
    (h : bucketFind b loc = some m) : loc ∈ b.map Prod.fst := by
  induction b with
  | nil => simp [bucketFind] at h
  | cons e t ih =>
    unfold bucketFind at h
    by_cases he : e.1 = loc
    · exact List.mem_map.mpr ⟨e, List.mem_cons_self _ _, he⟩
    · rw [if_neg he] at h
      exact List.mem_cons_of_mem _ (ih h)

theorem bucketFind_eq_none_of_not_mem
    {b : List (recordLocation × recordWithMeta)} {loc : recordLocation}
    (h : loc ∉ b.map Prod.fst) : bucketFind b loc = none := by
  cases hf : bucketFind b loc with
  | none => rfl
  | some m => exact absurd (mem_of_bucketFind_some hf) h

theorem bucketFind_erase_self (b : List (recordLocation × recordWithMeta))
    (loc : recordLocation) (h : (b.map Prod.fst).Nodup) :
    bucketFind (bucketErase b loc) loc = none := by
  induction b with
  | nil => rfl
  | cons e t ih =>
    simp only [List.map_cons, List.nodup_cons] at h
    unfold bucketErase
    by_cases he : e.1 = loc
    · rw [if_pos he]
      exact bucketFind_eq_none_of_not_mem (he ▸ h.1)
    · rw [if_neg he]
      unfold bucketFind
      rw [if_neg he]
      exact ih h.2

theorem bucketFind_erase_other (b : List (recordLocation × recordWithMeta))
    (loc y : recordLocation) (h : y ≠ loc) :
    bucketFind (bucketErase b loc) y = bucketFind b y := by
  induction b with
  | nil => rfl
  | cons e t ih =>
    simp only [bucketErase]
    by_cases he : e.1 = loc
    · rw [if_pos he]
      have hne : e.1 ≠ y := fun hy => h (by rw [← hy, he])
      simp only [bucketFind, if_neg hne]
    · rw [if_neg he]
      simp only [bucketFind, ih]

theorem bucketErase_keys_sub (b : List (recordLocation × recordWithMeta))
    (loc : recordLocation) :
    ((bucketErase b loc).map Prod.fst).Sublist (b.map Prod.fst) := by
  induction b with
  | nil => simp [bucketErase]
  | cons e t ih =>
    unfold bucketErase
    by_cases he : e.1 = loc
    · rw [if_pos he]
      simp only [List.map_cons]
      exact List.sublist_cons_self _ _
    · rw [if_neg he]
      simp only [List.map_cons]
      exact ih.cons₂ _

theorem bucketErase_nodup (b : List (recordLocation × recordWithMeta))
    (loc : recordLocation) (h : (b.map Prod.fst).Nodup) :
    ((bucketErase b loc).map Prod.fst).Nodup :=
  (bucketErase_keys_sub b loc).nodup h

theorem bucketErase_length_lt {b : List (recordLocation × recordWithMeta)}
    {loc : recordLocation} {m : recordWithMeta}
    (h : bucketFind b loc = some m) :
    (bucketErase b loc).length < b.length := by
  induction b with
  | nil => simp [bucketFind] at h
  | cons e t ih =>
    unfold bucketFind at h
    unfold bucketErase
    by_cases he : e.1 = loc
    · rw [if_pos he]
      simp
    · rw [if_neg he] at h
      rw [if_neg he]
      simpa using ih h

/-! ## Cascading eviction (`Cache.evictWithLock`, zero delay)

`evictWithLock` at `t == 0` deletes the bucket entry, removes the LRU node,
subtracts the record's memory and walks `rec.includedIn`: same-cache edges
recurse inline under the held lock, cross-cache edges are dispatched as
`go evict(ch)`.  The inline depth-first recursion is modelled with an
explicit worklist processed in the same order (children pushed in front);
cross-cache dispatches are collected, in encounter order, in the second
result component. -/

/-- Remove one bucket entry: the three mutations of `evictWithLock` before
the `includedIn` walk. -/
def evictEntry (st : CacheState) (loc : recordLocation) (m : recordWithMeta) :
    CacheState :=
  { st with
    buckets := bucketErase st.buckets loc
    lruList := st.lruList.erase loc
    memoryUsed := st.memoryUsed - m.memoryUsed }

/-- Depth-first inline eviction over a worklist of global locations.
Same-cache entries are evicted and their `includedIn` edges pushed in front
(matching the inline recursion order); cross-cache entries are emitted as
dispatched background evictions. -/
def evictRun (st : CacheState) (work : List intercacheRecordLocation) :
    CacheState × List intercacheRecordLocation :=
  match work with
  | [] => (st, [])
  | g :: rest =>
    if g.cache = st.id then
      match hf : bucketFind st.buckets g.loc with
      | none => evictRun st rest
      | some m =>
        evictRun (evictEntry st g.loc m) (m.includedIn ++ rest)
    else
      let r := evictRun st rest
      (r.1, g :: r.2)
termination_by (st.buckets.length, work.length)
decreasing_by
  · exact Prod.Lex.right _ (Nat.lt_succ_self _)
  · exact Prod.Lex.left _ _ (bucketErase_length_lt hf)
  · exact Prod.Lex.right _ (Nat.lt_succ_self _)

/-- `Cache.evictWithLock(loc)` with `delay == 0`, entered at this cache's
own id. -/
def evictLoc (st : CacheState) (loc : recordLocation) :
    CacheState × List intercacheRecordLocation :=
  evictRun st [{ cache := st.id, loc := loc }]

theorem evictRun_nil (st : CacheState) : evictRun st [] = (st, []) := by
  rw [evictRun]

theorem evictRun_cross (st : CacheState) (g : intercacheRecordLocation)
    (rest : List intercacheRecordLocation) (hc : ¬g.cache = st.id) :
    evictRun st (g :: rest) =
      ((evictRun st rest).1, g :: (evictRun st rest).2) := by
  rw [evictRun]
  simp [hc]

theorem evictRun_absent (st : CacheState) (g : intercacheRecordLocation)
    (rest : List intercacheRecordLocation) (hc : g.cache = st.id)
    (hf : bucketFind st.buckets g.loc = none) :
    evictRun st (g :: rest) = evictRun st rest := by
  rw [evictRun]
  rw [if_pos hc]
  split <;> simp_all

theorem evictRun_present (st : CacheState) (g : intercacheRecordLocation)
    (rest : List intercacheRecordLocation) (m : recordWithMeta)
    (hc : g.cache = st.id) (hf : bucketFind st.buckets g.loc = some m) :
    evictRun st (g :: rest) =
      evictRun (evictEntry st g.loc m) (m.includedIn ++ rest) := by
  rw [evictRun]
  rw [if_pos hc]
  split <;> simp_all

theorem bucketFind_erase_none {b : List (recordLocation × recordWithMeta)}
    {y : recordLocation} (loc : recordLocation)
    (h : bucketFind b y = none) : bucketFind (bucketErase b loc) y = none := by
  induction b with
  | nil => rfl
  | cons e t ih =>
    unfold bucketFind at h
    by_cases hy : e.1 = y
    · rw [if_pos hy] at h
      exact absurd h (by simp)
    · rw [if_neg hy] at h
      unfold bucketErase
      by_cases he : e.1 = loc
      · rw [if_pos he]
        exact h
      · rw [if_neg he]
        unfold bucketFind
        rw [if_neg hy]
        exact ih h

theorem evictEntry_id (st : CacheState) (loc : recordLocation)
    (m : recordWithMeta) : (evictEntry st loc m).id = st.id := rfl

/-- Once a location is absent it stays absent for the rest of an eviction
run: the run only erases bucket entries. -/
theorem evictRun_keeps_absent (st : CacheState)
    (work : List intercacheRecordLocation) (y : recordLocation)
    (h : bucketFind st.buckets y = none) :
    bucketFind (evictRun st work).1.buckets y = none := by
  induction st, work using evictRun.induct with
  | case1 st => rw [evictRun_nil]; exact h
  | case2 st g rest hc hf ih => rw [evictRun_absent st g rest hc hf]; exact ih h
  | case3 st g rest hc m hf ih =>
    rw [evictRun_present st g rest m hc hf]
    exact ih (bucketFind_erase_none g.loc h)
  | case4 st g rest hc ih => rw [evictRun_cross st g rest hc]; exact ih h

/-- Every same-cache entry of the worklist is absent when the run returns. -/
theorem evictRun_work_absent (st : CacheState)
    (work : List intercacheRecordLocation)
    (hn : (st.buckets.map Prod.fst).Nodup) (g : intercacheRecordLocation)
    (hg : g ∈ work) (hc : g.cache = st.id) :
    bucketFind (evictRun st work).1.buckets g.loc = none := by
  induction st, work using evictRun.induct with
  | case1 st => cases hg
  | case2 st h rest hch hf ih =>
    rw [evictRun_absent st h rest hch hf]
    rcases List.mem_cons.mp hg with rfl | hg2
    · exact evictRun_keeps_absent st rest _ hf
    · exact ih hn hg2 hc
  | case3 st h rest hch m hf ih =>
    rw [evictRun_present st h rest m hch hf]
    have hn2 : ((evictEntry st h.loc m).buckets.map Prod.fst).Nodup :=
      bucketErase_nodup st.buckets h.loc hn
    rcases List.mem_cons.mp hg with rfl | hg2
    · exact evictRun_keeps_absent _ _ _ (bucketFind_erase_self _ _ hn)
    · exact ih hn2 (List.mem_append_right _ hg2) hc
  | case4 st h rest hch ih =>
    rw [evictRun_cross st h rest hch]
    rcases List.mem_cons.mp hg with rfl | hg2
    · exact absurd hc hch
    · exact ih hn hg2 hc

/-- Every record evicted during a run has each of its same-cache
`includedIn` parents absent when the run returns: the inline recursion is
exhaustive. -/
theorem evictRun_children_absent (st : CacheState)
    (work : List intercacheRecordLocation)
    (hn : (st.buckets.map Prod.fst).Nodup) (x : recordLocation)
    (mx : recordWithMeta) (hx : bucketFind st.buckets x = some mx)
    (hgone : bucketFind (evictRun st work).1.buckets x = none)
    (b : intercacheRecordLocation) (hb : b ∈ mx.includedIn)
    (hbc : b.cache = st.id) :
    bucketFind (evictRun st work).1.buckets b.loc = none := by
  induction st, work using evictRun.induct with
  | case1 st =>
    rw [evictRun_nil] at hgone ⊢
    rw [hx] at hgone
    cases hgone
  | case2 st g rest hc hf ih =>
    rw [evictRun_absent st g rest hc hf] at hgone ⊢
    exact ih hn hx hgone hbc
  | case3 st g rest hc m hf ih =>
    rw [evictRun_present st g rest m hc hf] at hgone ⊢
    by_cases hxg : x = g.loc
    · subst hxg
      have hm : mx = m := by rw [hx] at hf; injection hf
      subst hm
      exact evictRun_work_absent _ _ (bucketErase_nodup _ _ hn) b
        (List.mem_append_left _ hb) hbc
    · have hx2 : bucketFind (evictEntry st g.loc m).buckets x = some mx := by
        show bucketFind (bucketErase st.buckets g.loc) x = some mx
        rw [bucketFind_erase_other _ _ _ hxg]
        exact hx
      exact ih (bucketErase_nodup _ _ hn) hx2 hgone hbc
  | case4 st g rest hc ih =>
    rw [evictRun_cross st g rest hc] at hgone ⊢
    exact ih hn hx hgone hbc

/-- Cross-cache worklist entries are emitted as dispatched evictions. -/
theorem evictRun_work_dispatched (st : CacheState)
    (work : List intercacheRecordLocation) (g : intercacheRecordLocation)
    (hg : g ∈ work) (hc : ¬g.cache = st.id) :
    g ∈ (evictRun st work).2 := by
  induction st, work using evictRun.induct with
  | case1 st => cases hg
  | case2 st h rest hch hf ih =>
    rw [evictRun_absent st h rest hch hf]
    rcases List.mem_cons.mp hg with rfl | hg2
    · exact absurd hch hc
    · exact ih hg2 hc
  | case3 st h rest hch m hf ih =>
    rw [evictRun_present st h rest m hch hf]
    rcases List.mem_cons.mp hg with rfl | hg2
    · exact absurd hch hc
    · exact ih (List.mem_append_right _ hg2) hc
  | case4 st h rest hch ih =>
    rw [evictRun_cross st h rest hch]
    rcases List.mem_cons.mp hg with rfl | hg2
    · exact List.mem_cons_self _ _
    · exact List.mem_cons_of_mem _ (ih hg2 hc)

/-- Every record evicted during a run has each of its cross-cache
`includedIn` parents dispatched as a background eviction. -/
theorem evictRun_children_dispatched (st : CacheState)
    (work : List intercacheRecordLocation)
    (hn : (st.buckets.map Prod.fst).Nodup) (x : recordLocation)
    (mx : recordWithMeta) (hx : bucketFind st.buckets x = some mx)
    (hgone : bucketFind (evictRun st work).1.buckets x = none)
    (b : intercacheRecordLocation) (hb : b ∈ mx.includedIn)
    (hbc : ¬b.cache = st.id) :
    b ∈ (evictRun st work).2 := by
  induction st, work using evictRun.induct with
  | case1 st =>
    rw [evictRun_nil] at hgone
    rw [hx] at hgone
    cases hgone
  | case2 st g rest hc hf ih =>
    rw [evictRun_absent st g rest hc hf] at hgone ⊢
    exact ih hn hx hgone hbc
  | case3 st g rest hc m hf ih =>
    rw [evictRun_present st g rest m hc hf] at hgone ⊢
    by_cases hxg : x = g.loc
    · subst hxg
      have hm : mx = m := by rw [hx] at hf; injection hf
      subst hm
      exact evictRun_work_dispatched _ _ b (List.mem_append_left _ hb) hbc
    · have hx2 : bucketFind (evictEntry st g.loc m).buckets x = some mx := by
        show bucketFind (bucketErase st.buckets g.loc) x = some mx
        rw [bucketFind_erase_other _ _ _ hxg]
        exact hx
      exact ih (bucketErase_nodup _ _ hn) hx2 hgone hbc
  | case4 st g rest hc ih =>
    rw [evictRun_cross st g rest hc] at hgone ⊢
    exact List.mem_cons_of_mem _ (ih hn hx hgone hbc)

/-- Only cross-cache locations are dispatched. -/
theorem evictRun_dispatched_cross (st : CacheState)
    (work : List intercacheRecordLocation) (g : intercacheRecordLocation)
    (hg : g ∈ (evictRun st work).2) : ¬g.cache = st.id := by
  induction st, work using evictRun.induct with
  | case1 st =>
    rw [evictRun_nil] at hg
    cases hg
  | case2 st h rest hch hf ih =>
    rw [evictRun_absent st h rest hch hf] at hg
    exact ih hg
  | case3 st h rest hch m hf ih =>
    rw [evictRun_present st h rest m hch hf] at hg
    exact ih hg
  | case4 st h rest hch ih =>
    rw [evictRun_cross st h rest hch] at hg
    rcases List.mem_cons.mp hg with rfl | hg2
    · exact hch
    · exact ih hg2

theorem bucketErase_keys_mem {b : List (recordLocation × recordWithMeta)}
    {z loc : recordLocation} (hz : z ∈ b.map Prod.fst) (hne : z ≠ loc) :
    z ∈ (bucketErase b loc).map Prod.fst := by
  induction b with
  | nil => cases hz
  | cons e t ih =>
    simp only [List.map_cons, List.mem_cons] at hz
    unfold bucketErase
    by_cases he : e.1 = loc
    · rw [if_pos he]
      rcases hz with rfl | hz2
      · exact absurd he hne
      · exact hz2
    · rw [if_neg he]
      simp only [List.map_cons, List.mem_cons]
      rcases hz with rfl | hz2
      · exact Or.inl rfl
      · exact Or.inr (ih hz2)

theorem bucketFind_some_of_mem {b : List (recordLocation × recordWithMeta)}
    {loc : recordLocation} (h : loc ∈ b.map Prod.fst) :
    ∃ m, bucketFind b loc = some m := by
  induction b with
  | nil => cases h
  | cons e t ih =>
    simp only [List.map_cons, List.mem_cons] at h
    unfold bucketFind
    by_cases he : e.1 = loc
    · exact ⟨e.2, if_pos he⟩
    · rw [if_neg he]
      exact ih (h.resolve_left fun hh => he hh.symm)

/-- Total memory recorded in the bucket entries. -/
def bucketMemSum (b : List (recordLocation × recordWithMeta)) : Nat :=
  (b.map (fun e => e.2.memoryUsed)).sum

theorem bucketMemSum_erase {b : List (recordLocation × recordWithMeta)}
    {loc : recordLocation} {m : recordWithMeta}
    (h : bucketFind b loc = some m) :
    bucketMemSum b = bucketMemSum (bucketErase b loc) + m.memoryUsed := by
  induction b with
  | nil => simp [bucketFind] at h
  | cons e t ih =>
    unfold bucketFind at h
    unfold bucketErase bucketMemSum
    by_cases he : e.1 = loc
    · rw [if_pos he] at h ⊢
      injection h with h
      subst h
      simp only [List.map_cons, List.sum_cons]
      omega
    · rw [if_neg he] at h ⊢
      simp only [List.map_cons, List.sum_cons]
      have := ih h
      unfold bucketMemSum at this
      omega

/-- Well-formedness of a cache state: bucket keys are unique, the LRU list
has no duplicate nodes, and every LRU node points at a bucket entry (the
invariant whose violation `Cache.getRecord` reports with a panic). -/
def WFState (st : CacheState) : Prop :=
  (st.buckets.map Prod.fst).Nodup ∧ st.lruList.Nodup ∧
    ∀ z ∈ st.lruList, z ∈ st.buckets.map Prod.fst

instance (st : CacheState) : Decidable (WFState st) := by
  unfold WFState
  infer_instance

theorem evictEntry_wf {st : CacheState} {loc : recordLocation}
    {m : recordWithMeta} (hwf : WFState st) : WFState (evictEntry st loc m) := by
  obtain ⟨hbn, hln, hsub⟩ := hwf
  refine ⟨bucketErase_nodup _ _ hbn, hln.erase _, ?_⟩
  intro z hz
  have hz2 : z ≠ loc ∧ z ∈ st.lruList := (hln.mem_erase_iff).mp hz
  exact bucketErase_keys_mem (hsub z hz2.2) hz2.1

theorem evictRun_wf (st : CacheState) (work : List intercacheRecordLocation)
    (hwf : WFState st) : WFState (evictRun st work).1 := by
  induction st, work using evictRun.induct with
  | case1 st => rw [evictRun_nil]; exact hwf
  | case2 st g rest hc hf ih => rw [evictRun_absent st g rest hc hf]; exact ih hwf
  | case3 st g rest hc m hf ih =>
    rw [evictRun_present st g rest m hc hf]
    exact ih (evictEntry_wf hwf)
  | case4 st g rest hc ih => rw [evictRun_cross st g rest hc]; exact ih hwf

/-- The memory accounting invariant: the cache total equals the sum of the
per-record `memoryUsed` of all bucket entries. -/
def MemInv (st : CacheState) : Prop :=
  st.memoryUsed = (bucketMemSum st.buckets : Int)

instance (st : CacheState) : Decidable (MemInv st) := by
  unfold MemInv
  infer_instance

theorem evictRun_memInv (st : CacheState)
    (work : List intercacheRecordLocation) (hm : MemInv st) :
    MemInv (evictRun st work).1 := by
  induction st, work using evictRun.induct with
  | case1 st => rw [evictRun_nil]; exact hm
  | case2 st g rest hc hf ih => rw [evictRun_absent st g rest hc hf]; exact ih hm
  | case3 st g rest hc m hf ih =>
    rw [evictRun_present st g rest m hc hf]
    refine ih ?_
    show st.memoryUsed - (m.memoryUsed : Int) =
      (bucketMemSum (bucketErase st.buckets g.loc) : Int)
    have := bucketMemSum_erase hf
    unfold MemInv at hm
    omega
  | case4 st g rest hc ih => rw [evictRun_cross st g rest hc]; exact ih hm

/-- Transitive dependents of a record through same-cache `includedIn` edges
recorded in state `st`: `ReachSt st x y` holds when `y`'s inclusion chain
leads to `x`'s slot. -/
inductive ReachSt (st : CacheState) : recordLocation → recordLocation → Prop
  | refl (x : recordLocation) : ReachSt st x x
  | step {x y : recordLocation} (b : recordLocation) (m : recordWithMeta)
      (hf : bucketFind st.buckets x = some m)
      (hb : ({ cache := st.id, loc := b } : intercacheRecordLocation) ∈
        m.includedIn)
      (h : ReachSt st b y) : ReachSt st x y

theorem evictRun_reach_absent (st : CacheState)
    (work : List intercacheRecordLocation)
    (hn : (st.buckets.map Prod.fst).Nodup) {x y : recordLocation}
    (hr : ReachSt st x y)
    (hx : bucketFind (evictRun st work).1.buckets x = none) :
    bucketFind (evictRun st work).1.buckets y = none := by
  induction hr with
  | refl => exact hx
  | step b m hf hb h ih =>
    exact ih (evictRun_children_absent st work hn _ m hf hx _ hb rfl)

/-- Claim C5: evicting a record at zero delay removes its bucket entry and
LRU node and subtracts its memory (for a dependency-free record the state
change is exactly `evictEntry`); every same-cache record whose inclusion
chain leads to the evicted slot is evicted inline before the call returns;
cross-cache dependents of every inline-evicted record are emitted as
asynchronous background evictions, and only cross-cache locations are. -/
theorem evictLoc_spec (st : CacheState) (loc : recordLocation)
    (hwf : WFState st) (hmem : MemInv st) :
    (∀ m, bucketFind st.buckets loc = some m → m.includedIn = [] →
      (evictLoc st loc).1 = evictEntry st loc m) ∧
    (∀ y, ReachSt st loc y →
      bucketFind (evictLoc st loc).1.buckets y = none) ∧
    loc ∉ (evictLoc st loc).1.lruList ∧
    MemInv (evictLoc st loc).1 ∧
    (∀ x mx, bucketFind st.buckets x = some mx →
      bucketFind (evictLoc st loc).1.buckets x = none →
      ∀ b ∈ mx.includedIn, ¬b.cache = st.id → b ∈ (evictLoc st loc).2) ∧
    (∀ b ∈ (evictLoc st loc).2, ¬b.cache = st.id) := by
  obtain ⟨hbn, hln, hsub⟩ := hwf
  have habs : bucketFind (evictLoc st loc).1.buckets loc = none :=
    evictRun_work_absent st _ hbn _ (List.mem_singleton.mpr rfl) rfl
  refine ⟨?_, ?_, ?_, ?_, ?_, ?_⟩
  · intro m hm hinc
    unfold evictLoc
    rw [evictRun_present st _ _ m rfl hm, hinc]
    simp only [List.nil_append]
    rw [evictRun_nil]
  · intro y hr
    exact evictRun_reach_absent st _ hbn hr habs
  · intro hmemlru
    have hwff : WFState (evictLoc st loc).1 :=
      evictRun_wf st _ ⟨hbn, hln, hsub⟩
    obtain ⟨m, hms⟩ := bucketFind_some_of_mem (hwff.2.2 loc hmemlru)
    rw [habs] at hms
    cases hms
  · exact evictRun_memInv st _ hmem
  · intro x mx hx hgone b hb hbc
    exact evictRun_children_dispatched st _ hbn x mx hx hgone b hb hbc
  · intro b hb
    exact evictRun_dispatched_cross st _ b hb

/-- A concrete two-record cache: record `(0,0)` is included in same-cache
record `(0,1)` and in a record of cache 9. -/
def c5state : CacheState :=
  { id := 3
    memoryLimit := 0
    lruLimit := 0
    buckets :=
      [({ frontend := 0, key := 0 },
          { recId := 0, memoryUsed := 5, lastUsed := 0
            includedIn :=
              [{ cache := 3, loc := { frontend := 0, key := 1 } },
                { cache := 9, loc := { frontend := 0, key := 5 } }] }),
        ({ frontend := 0, key := 1 },
          { recId := 1, memoryUsed := 3, lastUsed := 0, includedIn := [] })]
    lruList := [{ frontend := 0, key := 1 }, { frontend := 0, key := 0 }]
    memoryUsed := 8
    nextRecId := 2 }

/-- Witness for claim C5 at the concrete state `c5state`, evicting the
record that the other two depend on. -/
theorem evictLoc_spec_witness :
    (∀ m, bucketFind c5state.buckets { frontend := 0, key := 0 } = some m →
      m.includedIn = [] →
      (evictLoc c5state { frontend := 0, key := 0 }).1 =
        evictEntry c5state { frontend := 0, key := 0 } m) ∧
    (∀ y, ReachSt c5state { frontend := 0, key := 0 } y →
      bucketFind (evictLoc c5state { frontend := 0, key := 0 }).1.buckets y =
        none) ∧
    { frontend := 0, key := 0 } ∉
      (evictLoc c5state { frontend := 0, key := 0 }).1.lruList ∧
    MemInv (evictLoc c5state { frontend := 0, key := 0 }).1 ∧
    (∀ x mx, bucketFind c5state.buckets x = some mx →
      bucketFind (evictLoc c5state { frontend := 0, key := 0 }).1.buckets x =
        none →
      ∀ b ∈ mx.includedIn, ¬b.cache = c5state.id →
        b ∈ (evictLoc c5state { frontend := 0, key := 0 }).2) ∧
    (∀ b ∈ (evictLoc c5state { frontend := 0, key := 0 }).2,
      ¬b.cache = c5state.id) :=
  evictLoc_spec c5state { frontend := 0, key := 0 } (by decide) (by decide)

/-! ## `Cache.getRecord`, opportunistic tail eviction and `setUsedMemory`
(`unnamed/part_004`) -/

/-- Why a tail entry was evicted by the opportunistic loop. -/
inductive EvictReason where
  | mem
  | lru
deriving DecidableEq, Repr

/-- `linkedList.MoveToFront` on the location list. -/
def moveToFront (l : List recordLocation) (x : recordLocation) :
    List recordLocation :=
  x :: l.erase x

/-- One iteration of the tail-eviction loop of `Cache.getRecord`: check the
LRU tail against the memory limit, then against the age limit, and evict it
(cascading) when one is exceeded.  `none` models both `break` paths and the
(unreachable for well-formed states) missing-record panic. -/
def evictStep (st : CacheState) (now : Nat) :
    Option (CacheState × recordLocation × EvictReason) :=
  match st.lruList.getLast? with
  | none => none
  | some last =>
    if st.memoryLimit ≠ 0 ∧ (st.memoryLimit : Int) < st.memoryUsed then
      some ((evictLoc st last).1, last, .mem)
    else if st.lruLimit ≠ 0 then
      match bucketFind st.buckets last with
      | none => none
      | some m =>
        if m.lastUsed + st.lruLimit < now then
          some ((evictLoc st last).1, last, .lru)
        else none
    else none

/-- The `for i := 0; i < 2; i++` eviction loop, logging what was evicted. -/
def evictTail2 (st : CacheState) (now : Nat) :
    CacheState × List (recordLocation × EvictReason) :=
  match evictStep st now with
  | none => (st, [])
  | some (st1, l1, r1) =>
    match evictStep st1 now with
    | none => (st1, [(l1, r1)])
    | some (st2, l2, r2) => (st2, [(l1, r1), (l2, r2)])

/-- Result of `Cache.getRecord`, with the eviction log exposed. -/
structure GetResult where
  state : CacheState
  recId : Nat
  fresh : Bool
  evicted : List (recordLocation × EvictReason)
deriving DecidableEq, Repr

/-- `Cache.getRecord`: find-or-insert under the lock, touch the LRU node
and `lastUsed`, then run the two-step opportunistic eviction. -/
def getRecord (st : CacheState) (loc : recordLocation) (now : Nat) :
    GetResult :=
  match bucketFind st.buckets loc with
  | none =>
    let meta : recordWithMeta :=
      { recId := st.nextRecId, memoryUsed := 0, lastUsed := now
        includedIn := [] }
    let st1 := { st with
      buckets := bucketSet st.buckets loc meta
      lruList := loc :: st.lruList
      nextRecId := st.nextRecId + 1 }
    let r := evictTail2 st1 now
    { state := r.1, recId := st.nextRecId, fresh := true, evicted := r.2 }
  | some m =>
    let st1 := { st with
      buckets := bucketSet st.buckets loc { m with lastUsed := now }
      lruList := moveToFront st.lruList loc }
    let r := evictTail2 st1 now
    { state := r.1, recId := m.recId, fresh := false, evicted := r.2 }

/-- `Cache.setUsedMemory`: commit a populated record's memory, a no-op
unless the location still maps to the exact record instance `src`. -/
def setUsedMemory (st : CacheState) (src : Nat) (loc : recordLocation)
    (memoryUsed : Nat) : CacheState :=
  match bucketFind st.buckets loc with
  | none => st
  | some rec =>
    if rec.recId = src then
      { st with
        buckets := bucketSet st.buckets loc { rec with memoryUsed := memoryUsed }
        memoryUsed := st.memoryUsed + memoryUsed }
    else st

theorem evictRun_limits (st : CacheState)
    (work : List intercacheRecordLocation) :
    (evictRun st work).1.memoryLimit = st.memoryLimit ∧
      (evictRun st work).1.lruLimit = st.lruLimit ∧
      (evictRun st work).1.id = st.id := by
  induction st, work using evictRun.induct with
  | case1 st => rw [evictRun_nil]; exact ⟨rfl, rfl, rfl⟩
  | case2 st g rest hc hf ih => rw [evictRun_absent st g rest hc hf]; exact ih
  | case3 st g rest hc m hf ih => rw [evictRun_present st g rest m hc hf]; exact ih
  | case4 st g rest hc ih => rw [evictRun_cross st g rest hc]; exact ih

/-- A successful `evictStep` always targets the LRU tail, evicts by the
stated reason only while the corresponding limit is non-zero and exceeded,
and performs the cascading eviction of that tail. -/
theorem evictStep_spec (st : CacheState) (now : Nat) (st2 : CacheState)
    (l : recordLocation) (reason : EvictReason)
    (h : evictStep st now = some (st2, l, reason)) :
    st.lruList.getLast? = some l ∧ st2 = (evictLoc st l).1 ∧
      (reason = .mem →
        st.memoryLimit ≠ 0 ∧ (st.memoryLimit : Int) < st.memoryUsed) ∧
      (reason = .lru → st.lruLimit ≠ 0 ∧
        ∃ m, bucketFind st.buckets l = some m ∧
          m.lastUsed + st.lruLimit < now) := by
  unfold evictStep at h
  cases hl : st.lruList.getLast? with
  | none => rw [hl] at h; cases h
  | some last =>
    rw [hl] at h
    dsimp only at h
    by_cases hmem : st.memoryLimit ≠ 0 ∧ (st.memoryLimit : Int) < st.memoryUsed
    · rw [if_pos hmem] at h
      injection h with h
      rw [Prod.mk.injEq, Prod.mk.injEq] at h
      obtain ⟨h1, h2, h3⟩ := h
      subst h1
      subst h2
      subst h3
      exact ⟨rfl, rfl, fun _ => hmem, fun hr => by simp at hr⟩
    · rw [if_neg hmem] at h
      by_cases hlru : st.lruLimit ≠ 0
      · rw [if_pos hlru] at h
        cases hf : bucketFind st.buckets last with
        | none => rw [hf] at h; cases h
        | some m =>
          rw [hf] at h
          dsimp only at h
          by_cases hage : m.lastUsed + st.lruLimit < now
          · rw [if_pos hage] at h
            injection h with h
            rw [Prod.mk.injEq, Prod.mk.injEq] at h
            obtain ⟨h1, h2, h3⟩ := h
            subst h1
            subst h2
            subst h3
            exact ⟨rfl, rfl, fun hr => by simp at hr,
              fun _ => ⟨hlru, m, hf, hage⟩⟩
          · rw [if_neg hage] at h
            cases h
      · rw [if_neg hlru] at h
        cases h

/-- Claim C4: on every get-or-create at most two LRU-tail entries are
opportunistically evicted; an entry is evicted only for a non-zero exceeded
limit (memory over budget, or tail age beyond `lruLimit`); zero limits
disable the corresponding eviction, and both zero disable the loop. -/
theorem getRecord_opportunistic (st : CacheState) (loc : recordLocation)
    (now : Nat) :
    (getRecord st loc now).evicted.length ≤ 2 ∧
      (∀ e ∈ (getRecord st loc now).evicted,
        (e.2 = .mem → st.memoryLimit ≠ 0) ∧ (e.2 = .lru → st.lruLimit ≠ 0)) ∧
      (st.memoryLimit = 0 ∧ st.lruLimit = 0 →
        (getRecord st loc now).evicted = []) ∧
      (∀ s n s2 l reason, evictStep s n = some (s2, l, reason) →
        s.lruList.getLast? = some l ∧ s2 = (evictLoc s l).1 ∧
          (reason = .mem →
            s.memoryLimit ≠ 0 ∧ (s.memoryLimit : Int) < s.memoryUsed) ∧
          (reason = .lru → s.lruLimit ≠ 0 ∧
            ∃ m, bucketFind s.buckets l = some m ∧
              m.lastUsed + s.lruLimit < n)) := by
  have key : ∀ s1 : CacheState, s1.memoryLimit = st.memoryLimit →
      s1.lruLimit = st.lruLimit →
      (evictTail2 s1 now).2.length ≤ 2 ∧
      (∀ e ∈ (evictTail2 s1 now).2,
        (e.2 = .mem → st.memoryLimit ≠ 0) ∧ (e.2 = .lru → st.lruLimit ≠ 0)) ∧
      (st.memoryLimit = 0 ∧ st.lruLimit = 0 → (evictTail2 s1 now).2 = []) := by
    intro s1 hml hll
    unfold evictTail2
    cases h1 : evictStep s1 now with
    | none =>
      dsimp only
      exact ⟨by simp, by simp, fun _ => rfl⟩
    | some r1 =>
      obtain ⟨st1, l1, reason1⟩ := r1
      dsimp only
      obtain ⟨-, hst1, hm1, hl1⟩ := evictStep_spec s1 now st1 l1 reason1 h1
      have hlim1 : st1.memoryLimit = st.memoryLimit ∧
          st1.lruLimit = st.lruLimit := by
        rw [hst1]
        have := evictRun_limits s1 [{ cache := s1.id, loc := l1 }]
        exact ⟨this.1.trans hml, this.2.1.trans hll⟩
      cases h2 : evictStep st1 now with
      | none =>
        dsimp only
        refine ⟨by simp, ?_, ?_⟩
        · intro e he
          rw [List.mem_singleton] at he
          subst he
          exact ⟨fun hr => hml ▸ (hm1 hr).1, fun hr => hll ▸ (hl1 hr).1⟩
        · rintro ⟨hz1, hz2⟩
          rcases reason1 with _ | _
          · exact absurd (hml ▸ hz1) (hm1 rfl).1
          · exact absurd (hll ▸ hz2) (hl1 rfl).1
      | some r2 =>
        obtain ⟨st2, l2, reason2⟩ := r2
        dsimp only
        obtain ⟨-, -, hm2, hl2⟩ := evictStep_spec st1 now st2 l2 reason2 h2
        refine ⟨by simp, ?_, ?_⟩
        · intro e he
          rcases List.mem_cons.mp he with rfl | he2
          · exact ⟨fun hr => hml ▸ (hm1 hr).1, fun hr => hll ▸ (hl1 hr).1⟩
          · rw [List.mem_singleton] at he2
            subst he2
            exact ⟨fun hr => hlim1.1 ▸ (hm2 hr).1, fun hr => hlim1.2 ▸ (hl2 hr).1⟩
        · rintro ⟨hz1, hz2⟩
          rcases reason1 with _ | _
          · exact absurd (hml ▸ hz1) (hm1 rfl).1
          · exact absurd (hll ▸ hz2) (hl1 rfl).1
  refine ⟨?_, ?_, ?_, fun s n s2 l reason h => evictStep_spec s n s2 l reason h⟩
    <;> unfold getRecord
  all_goals cases hf : bucketFind st.buckets loc
  all_goals simp only []
  · exact (key _ (by rfl) (by rfl)).1
  · exact (key _ (by rfl) (by rfl)).1
  · exact (key _ (by rfl) (by rfl)).2.1
  · exact (key _ (by rfl) (by rfl)).2.1
  · exact (key _ (by rfl) (by rfl)).2.2
  · exact (key _ (by rfl) (by rfl)).2.2

theorem bucketSet_mem {b : List (recordLocation × recordWithMeta)}
    {loc : recordLocation} {m : recordWithMeta}
    {e : recordLocation × recordWithMeta} (h : e ∈ bucketSet b loc m) :
    e = (loc, m) ∨ e ∈ b := by
  induction b with
  | nil =>
    rcases List.mem_singleton.mp h with rfl
    exact Or.inl rfl
  | cons f t ih =>
    unfold bucketSet at h
    by_cases hf : f.1 = loc
    · rw [if_pos hf] at h
      rcases List.mem_cons.mp h with rfl | h2
      · exact Or.inl rfl
      · exact Or.inr (List.mem_cons_of_mem _ h2)
    · rw [if_neg hf] at h
      rcases List.mem_cons.mp h with rfl | h2
      · exact Or.inr (List.mem_cons_self _ _)
      · rcases ih h2 with h3 | h3
        · exact Or.inl h3
        · exact Or.inr (List.mem_cons_of_mem _ h3)

theorem bucketSet_keys_of_none {b : List (recordLocation × recordWithMeta)}
    {loc : recordLocation} (m : recordWithMeta)
    (h : bucketFind b loc = none) :
    (bucketSet b loc m).map Prod.fst = b.map Prod.fst ++ [loc] := by
  induction b with
  | nil => rfl
  | cons f t ih =>
    unfold bucketFind at h
    unfold bucketSet
    by_cases hf : f.1 = loc
    · rw [if_pos hf] at h
      cases h
    · rw [if_neg hf] at h
      rw [if_neg hf]
      simp only [List.map_cons, List.cons_append, List.cons.injEq]
      exact ⟨trivial, ih h⟩

theorem bucketSet_keys_of_some {b : List (recordLocation × recordWithMeta)}
    {loc : recordLocation} {m0 : recordWithMeta} (m : recordWithMeta)
    (h : bucketFind b loc = some m0) :
    (bucketSet b loc m).map Prod.fst = b.map Prod.fst := by
  induction b with
  | nil => simp [bucketFind] at h
  | cons f t ih =>
    unfold bucketFind at h
    unfold bucketSet
    by_cases hf : f.1 = loc
    · rw [if_pos hf]
      simp only [List.map_cons, hf]
    · rw [if_neg hf] at h
      rw [if_neg hf]
      simp only [List.map_cons, List.cons.injEq]
      exact ⟨trivial, ih h⟩

theorem bucketMemSum_set_none {b : List (recordLocation × recordWithMeta)}
    {loc : recordLocation} (m : recordWithMeta)
    (h : bucketFind b loc = none) :
    bucketMemSum (bucketSet b loc m) = bucketMemSum b + m.memoryUsed := by
  induction b with
  | nil => simp [bucketSet, bucketMemSum]
  | cons f t ih =>
    unfold bucketFind at h
    unfold bucketSet
    by_cases hf : f.1 = loc
    · rw [if_pos hf] at h
      cases h
    · rw [if_neg hf] at h
      rw [if_neg hf]
      unfold bucketMemSum at ih ⊢
      simp only [List.map_cons, List.sum_cons, ih h]
      omega

theorem bucketMemSum_set_some {b : List (recordLocation × recordWithMeta)}
    {loc : recordLocation} {m0 : recordWithMeta} (m : recordWithMeta)
    (h : bucketFind b loc = some m0) :
    bucketMemSum (bucketSet b loc m) + m0.memoryUsed =
      bucketMemSum b + m.memoryUsed := by
  induction b with
  | nil => simp [bucketFind] at h
  | cons f t ih =>
    unfold bucketFind at h
    unfold bucketSet
    by_cases hf : f.1 = loc
    · rw [if_pos hf] at h
      injection h with h
      subst h
      rw [if_pos hf]
      unfold bucketMemSum
      simp only [List.map_cons, List.sum_cons]
      omega
    · rw [if_neg hf] at h
      rw [if_neg hf]
      unfold bucketMemSum at ih ⊢
      simp only [List.map_cons, List.sum_cons]
      have := ih h
      omega

theorem bucketFind_entry_mem {b : List (recordLocation × recordWithMeta)}
    {loc : recordLocation} {m : recordWithMeta}
    (h : bucketFind b loc = some m) : (loc, m) ∈ b := by
  induction b with
  | nil => simp [bucketFind] at h
  | cons f t ih =>
    unfold bucketFind at h
    by_cases hf : f.1 = loc
    · rw [if_pos hf] at h
      injection h with h
      rcases f with ⟨fk, fv⟩
      cases hf
      cases h
      exact List.mem_cons_self _ _
    · rw [if_neg hf] at h
      exact List.mem_cons_of_mem _ (ih h)

theorem bucketErase_sub {b : List (recordLocation × recordWithMeta)}
    {loc : recordLocation} {e : recordLocation × recordWithMeta}
    (h : e ∈ bucketErase b loc) : e ∈ b := by
  induction b with
  | nil => cases h
  | cons f t ih =>
    unfold bucketErase at h
    by_cases hf : f.1 = loc
    · rw [if_pos hf] at h
      exact List.mem_cons_of_mem _ h
    · rw [if_neg hf] at h
      rcases List.mem_cons.mp h with rfl | h2
      · exact List.mem_cons_self _ _
      · exact List.mem_cons_of_mem _ (ih h2)

theorem evictRun_buckets_sub (st : CacheState)
    (work : List intercacheRecordLocation)
    {e : recordLocation × recordWithMeta}
    (h : e ∈ (evictRun st work).1.buckets) : e ∈ st.buckets := by
  induction st, work using evictRun.induct with
  | case1 st => rw [evictRun_nil] at h; exact h
  | case2 st g rest hc hf ih => rw [evictRun_absent st g rest hc hf] at h; exact ih h
  | case3 st g rest hc m hf ih =>
    rw [evictRun_present st g rest m hc hf] at h
    exact bucketErase_sub (ih h)
  | case4 st g rest hc ih => rw [evictRun_cross st g rest hc] at h; exact ih h

/-! ## Memory accounting invariant across operation traces (claim C3) -/

/-- Cache operations visible to the memory-accounting invariant: get-or-
create, `setUsedMemory` commit, and immediate eviction. -/
inductive CacheOp where
  | get (loc : recordLocation) (now : Nat)
  | commit (src : Nat) (loc : recordLocation) (n : Nat)
  | evictNow (loc : recordLocation)
deriving DecidableEq, Repr

def runOp (st : CacheState) : CacheOp → CacheState
  | .get loc now => (getRecord st loc now).state
  | .commit src loc n => setUsedMemory st src loc n
  | .evictNow loc => (evictLoc st loc).1

def runOps (st : CacheState) (ops : List CacheOp) : CacheState :=
  ops.foldl runOp st

/-- A cache as built by `NewCache`: empty buckets, empty LRU list, zero
used memory. -/
def initCache (id memoryLimit lruLimit : Nat) : CacheState :=
  { id := id, memoryLimit := memoryLimit, lruLimit := lruLimit, buckets := []
    lruList := [], memoryUsed := 0, nextRecId := 0 }

/-- The `src` arguments of the `setUsedMemory` commits of a trace.  In the
program each populated record instance is committed at most once (populate
runs only for the elected fresh caller), so these are pairwise distinct. -/
def commitSrcIds (ops : List CacheOp) : List Nat :=
  ops.filterMap fun op =>
    match op with
    | .commit src _ _ => some src
    | _ => none

/-- Induction invariant: the memory sum equation, unique bucket keys, and
"a record with non-zero recorded memory has been committed". -/
def AccInv (st : CacheState) (committed : List Nat) : Prop :=
  MemInv st ∧ (st.buckets.map Prod.fst).Nodup ∧
    ∀ e ∈ st.buckets, e.2.memoryUsed ≠ 0 → e.2.recId ∈ committed

theorem AccInv.mono {st : CacheState} {c1 c2 : List Nat}
    (hsub : ∀ x ∈ c1, x ∈ c2) (h : AccInv st c1) : AccInv st c2 :=
  ⟨h.1, h.2.1, fun e he hm => hsub _ (h.2.2 e he hm)⟩

theorem evictRun_keys_nodup (st : CacheState)
    (work : List intercacheRecordLocation)
    (h : (st.buckets.map Prod.fst).Nodup) :
    ((evictRun st work).1.buckets.map Prod.fst).Nodup := by
  induction st, work using evictRun.induct with
  | case1 st => rw [evictRun_nil]; exact h
  | case2 st g rest hc hf ih => rw [evictRun_absent st g rest hc hf]; exact ih h
  | case3 st g rest hc m hf ih =>
    rw [evictRun_present st g rest m hc hf]
    exact ih (bucketErase_nodup _ _ h)
  | case4 st g rest hc ih => rw [evictRun_cross st g rest hc]; exact ih h

theorem evictRun_accInv (st : CacheState)
    (work : List intercacheRecordLocation) (c : List Nat)
    (h : AccInv st c) : AccInv (evictRun st work).1 c := by
  obtain ⟨h1, h2, h3⟩ := h
  refine ⟨evictRun_memInv st work h1, evictRun_keys_nodup st work h2, ?_⟩
  intro e he hm
  exact h3 e (evictRun_buckets_sub st work he) hm

theorem evictTail2_accInv (st : CacheState) (now : Nat) (c : List Nat)
    (h : AccInv st c) : AccInv (evictTail2 st now).1 c := by
  unfold evictTail2
  cases h1 : evictStep st now with
  | none => exact h
  | some r1 =>
    obtain ⟨st1, l1, reason1⟩ := r1
    dsimp only
    obtain ⟨-, hst1, -, -⟩ := evictStep_spec st now st1 l1 reason1 h1
    have hi1 : AccInv st1 c := hst1 ▸ evictRun_accInv st _ c h
    cases h2 : evictStep st1 now with
    | none => exact hi1
    | some r2 =>
      obtain ⟨st2, l2, reason2⟩ := r2
      dsimp only
      obtain ⟨-, hst2, -, -⟩ := evictStep_spec st1 now st2 l2 reason2 h2
      exact hst2 ▸ evictRun_accInv st1 _ c hi1

theorem getRecord_accInv (st : CacheState) (loc : recordLocation) (now : Nat)
    (c : List Nat) (h : AccInv st c) :
    AccInv (getRecord st loc now).state c := by
  obtain ⟨h1, h2, h3⟩ := h
  unfold getRecord
  cases hf : bucketFind st.buckets loc with
  | none =>
    dsimp only
    refine evictTail2_accInv _ now c ⟨?_, ?_, ?_⟩
    · show st.memoryUsed = (bucketMemSum (bucketSet st.buckets loc _) : Int)
      rw [bucketMemSum_set_none _ hf]
      unfold MemInv at h1
      dsimp only
      omega
    · show ((bucketSet st.buckets loc _).map Prod.fst).Nodup
      rw [bucketSet_keys_of_none _ hf]
      rw [List.nodup_append]
      refine ⟨h2, List.nodup_singleton _, ?_⟩
      intro a ha hmem
      rw [List.mem_singleton] at hmem
      subst hmem
      obtain ⟨m, hm⟩ := bucketFind_some_of_mem ha
      rw [hf] at hm
      cases hm
    · intro e he hm
      rcases bucketSet_mem he with rfl | he2
      · exact absurd rfl hm
      · exact h3 e he2 hm
  | some m =>
    dsimp only
    refine evictTail2_accInv _ now c ⟨?_, ?_, ?_⟩
    · show st.memoryUsed = (bucketMemSum (bucketSet st.buckets loc _) : Int)
      have := @bucketMemSum_set_some st.buckets loc _
        { m with lastUsed := now } hf
      unfold MemInv at h1
      simp only at this
      omega
    · show ((bucketSet st.buckets loc _).map Prod.fst).Nodup
      rw [bucketSet_keys_of_some _ hf]
      exact h2
    · intro e he hm
      rcases bucketSet_mem he with rfl | he2
      · exact h3 (loc, m) (bucketFind_entry_mem hf) hm
      · exact h3 e he2 hm

theorem setUsedMemory_accInv (st : CacheState) (src : Nat)
    (loc : recordLocation) (n : Nat) (c : List Nat) (hsrc : src ∉ c)
    (h : AccInv st c) : AccInv (setUsedMemory st src loc n) (c ++ [src]) := by
  obtain ⟨h1, h2, h3⟩ := h
  have hmono : ∀ x ∈ c, x ∈ c ++ [src] := fun x hx => List.mem_append_left _ hx
  unfold setUsedMemory
  cases hf : bucketFind st.buckets loc with
  | none => exact AccInv.mono hmono ⟨h1, h2, h3⟩
  | some rec =>
    dsimp only
    by_cases hid : rec.recId = src
    · rw [if_pos hid]
      have hzero : rec.memoryUsed = 0 := by
        by_contra hnz
        exact hsrc (hid ▸ h3 (loc, rec) (bucketFind_entry_mem hf) hnz)
      refine ⟨?_, ?_, ?_⟩
      · show st.memoryUsed + (n : Int) =
          (bucketMemSum (bucketSet st.buckets loc _) : Int)
        have := @bucketMemSum_set_some st.buckets loc _
          { rec with memoryUsed := n } hf
        unfold MemInv at h1
        simp only at this
        omega
      · show ((bucketSet st.buckets loc _).map Prod.fst).Nodup
        rw [bucketSet_keys_of_some _ hf]
        exact h2
      · intro e he hm
        rcases bucketSet_mem he with rfl | he2
        · show rec.recId ∈ c ++ [src]
          rw [hid]
          exact List.mem_append_right _ (List.mem_singleton.mpr rfl)
        · exact hmono _ (h3 e he2 hm)
    · rw [if_neg hid]
      exact AccInv.mono hmono ⟨h1, h2, h3⟩

/-- `setUsedMemory` is a no-op when the location is absent or holds a
different record instance. -/
theorem setUsedMemory_noop (st : CacheState) (src : Nat)
    (loc : recordLocation) (n : Nat)
    (h : bucketFind st.buckets loc = none ∨
      ∀ m, bucketFind st.buckets loc = some m → m.recId ≠ src) :
    setUsedMemory st src loc n = st := by
  unfold setUsedMemory
  cases hf : bucketFind st.buckets loc with
  | none => rfl
  | some rec =>
    dsimp only
    rcases h with h | h
    · rw [hf] at h; cases h
    · rw [if_neg (h rec hf)]

theorem runOps_accInv (ops : List CacheOp) (st : CacheState) (c : List Nat)
    (h : AccInv st c) (hdist : (commitSrcIds ops).Nodup)
    (hdisj : ∀ s ∈ commitSrcIds ops, s ∉ c) :
    AccInv (runOps st ops) (c ++ commitSrcIds ops) := by
  induction ops generalizing st c with
  | nil =>
    simp only [runOps, List.foldl_nil, commitSrcIds, List.filterMap_nil,
      List.append_nil]
    exact h
  | cons op rest ih =>
    show AccInv (runOps (runOp st op) rest) _
    cases op with
    | get loc now =>
      have hids : commitSrcIds (CacheOp.get loc now :: rest) =
          commitSrcIds rest := rfl
      rw [hids] at hdist hdisj ⊢
      exact ih _ _ (getRecord_accInv st loc now c h) hdist hdisj
    | evictNow loc =>
      have hids : commitSrcIds (CacheOp.evictNow loc :: rest) =
          commitSrcIds rest := rfl
      rw [hids] at hdist hdisj ⊢
      exact ih _ _ (evictRun_accInv st _ c h) hdist hdisj
    | commit src loc n =>
      have hids : commitSrcIds (CacheOp.commit src loc n :: rest) =
          src :: commitSrcIds rest := rfl
      rw [hids] at hdist hdisj ⊢
      rw [List.nodup_cons] at hdist
      have hstep : AccInv (setUsedMemory st src loc n) (c ++ [src]) :=
        setUsedMemory_accInv st src loc n c
          (hdisj src (List.mem_cons_self _ _)) h
      have hrest : ∀ s ∈ commitSrcIds rest, s ∉ c ++ [src] := by
        intro s hs hmem
        rcases List.mem_append.mp hmem with hmc | hms
        · exact hdisj s (List.mem_cons_of_mem _ hs) hmc
        · rw [List.mem_singleton] at hms
          subst hms
          exact hdist.1 hs
      refine AccInv.mono ?_ (ih _ _ hstep hdist.2 hrest)
      intro x hx
      simp only [List.append_assoc, List.singleton_append] at hx
      exact hx

/-- Claim C3: after any program trace of get-or-create operations,
`setUsedMemory` commits (at most one per record instance, as `populate`
runs once for the elected fresh caller) and zero-delay evictions, the cache
total equals the sum of `memoryUsed` over all bucket entries and is
non-negative; and `setUsedMemory` leaves the state unchanged when the
location no longer maps to the committed record instance. -/
theorem runOps_memory_invariant (cid mlim llim : Nat) (ops : List CacheOp)
    (hdist : (commitSrcIds ops).Nodup) :
    (runOps (initCache cid mlim llim) ops).memoryUsed =
      (bucketMemSum (runOps (initCache cid mlim llim) ops).buckets : Int) ∧
    0 ≤ (runOps (initCache cid mlim llim) ops).memoryUsed ∧
    (∀ st src loc n,
      (bucketFind st.buckets loc = none ∨
        ∀ m, bucketFind st.buckets loc = some m → m.recId ≠ src) →
      setUsedMemory st src loc n = st) := by
  have hinit : AccInv (initCache cid mlim llim) [] := by
    refine ⟨rfl, List.nodup_nil, ?_⟩
    intro e he
    cases he
  have := runOps_accInv ops (initCache cid mlim llim) [] hinit hdist
    (fun s _ hmem => by cases hmem)
  obtain ⟨h1, -, -⟩ := this
  refine ⟨h1, ?_, fun st src loc n h => setUsedMemory_noop st src loc n h⟩
  rw [h1]
  exact Int.ofNat_nonneg _

/-- Witness for claim C3 on a concrete trace: two inserts, two commits, one
eviction. -/
theorem runOps_memory_invariant_witness :
    (commitSrcIds [CacheOp.get { frontend := 0, key := 0 } 5,
        CacheOp.commit 0 { frontend := 0, key := 0 } 7,
        CacheOp.get { frontend := 0, key := 1 } 6,
        CacheOp.commit 1 { frontend := 0, key := 1 } 3,
        CacheOp.evictNow { frontend := 0, key := 0 }]).Nodup ∧
    ((runOps (initCache 0 0 0) [CacheOp.get { frontend := 0, key := 0 } 5,
        CacheOp.commit 0 { frontend := 0, key := 0 } 7,
        CacheOp.get { frontend := 0, key := 1 } 6,
        CacheOp.commit 1 { frontend := 0, key := 1 } 3,
        CacheOp.evictNow { frontend := 0, key := 0 }]).memoryUsed =
      (bucketMemSum (runOps (initCache 0 0 0)
        [CacheOp.get { frontend := 0, key := 0 } 5,
          CacheOp.commit 0 { frontend := 0, key := 0 } 7,
          CacheOp.get { frontend := 0, key := 1 } 6,
          CacheOp.commit 1 { frontend := 0, key := 1 } 3,
          CacheOp.evictNow { frontend := 0, key := 0 }]).buckets : Int) ∧
      0 ≤ (runOps (initCache 0 0 0) [CacheOp.get { frontend := 0, key := 0 } 5,
        CacheOp.commit 0 { frontend := 0, key := 0 } 7,
        CacheOp.get { frontend := 0, key := 1 } 6,
        CacheOp.commit 1 { frontend := 0, key := 1 } 3,
        CacheOp.evictNow { frontend := 0, key := 0 }]).memoryUsed ∧
      (∀ st src loc n,
        (bucketFind st.buckets loc = none ∨
          ∀ m, bucketFind st.buckets loc = some m → m.recId ≠ src) →
        setUsedMemory st src loc n = st)) :=
  ⟨by decide, runOps_memory_invariant 0 0 0 _ (by decide)⟩

/-! ## Eviction scheduler (`eviction.go` `init` goroutine)

The scheduler keeps `pending : map[intercacheRecordLocation]time.Time`.  On
a request it computes `deadline = now + timer` and overwrites the entry iff
there is none or the new deadline is strictly earlier.  Requests are
modelled as `(loc, now, timer)` triples processed in order; times are `Nat`
ticks. -/

def pendingFind (p : List (intercacheRecordLocation × Nat))
    (loc : intercacheRecordLocation) : Option Nat :=
  match p with
  | [] => none
  | e :: t => if e.1 = loc then some e.2 else pendingFind t loc

def pendingSet (p : List (intercacheRecordLocation × Nat))
    (loc : intercacheRecordLocation) (d : Nat) :
    List (intercacheRecordLocation × Nat) :=
  match p with
  | [] => [(loc, d)]
  | e :: t => if e.1 = loc then (loc, d) :: t else e :: pendingSet t loc d

/-- One scheduler loop iteration for a request `(loc, now, timer)`. -/
def schedStep (p : List (intercacheRecordLocation × Nat))
    (req : intercacheRecordLocation × Nat × Nat) :
    List (intercacheRecordLocation × Nat) :=
  let deadline := req.2.1 + req.2.2
  match pendingFind p req.1 with
  | none => pendingSet p req.1 deadline
  | some existing =>
    if deadline < existing then pendingSet p req.1 deadline else p

/-- The scheduler state after processing a request sequence, starting with
no pending evictions. -/
def runSched (reqs : List (intercacheRecordLocation × Nat × Nat)) :
    List (intercacheRecordLocation × Nat) :=
  reqs.foldl schedStep []

/-- The deadlines `now + timer` of the requests that concern `loc`, in
processing order. -/
def deadlinesFor (loc : intercacheRecordLocation)
    (reqs : List (intercacheRecordLocation × Nat × Nat)) : List Nat :=
  reqs.filterMap fun r => if r.1 = loc then some (r.2.1 + r.2.2) else none

/-- Running minimum, mirroring the overwrite-iff-strictly-earlier rule. -/
def minFold (acc : Option Nat) (ds : List Nat) : Option Nat :=
  match ds with
  | [] => acc
  | d :: t =>
    match acc with
    | none => minFold (some d) t
    | some m => minFold (some (if d < m then d else m)) t

theorem pendingFind_set_self (p : List (intercacheRecordLocation × Nat))
    (loc : intercacheRecordLocation) (d : Nat) :
    pendingFind (pendingSet p loc d) loc = some d := by
  induction p with
  | nil => simp [pendingSet, pendingFind]
  | cons e t ih =>
    unfold pendingSet
    by_cases he : e.1 = loc
    · rw [if_pos he]
      simp [pendingFind]
    · rw [if_neg he]
      unfold pendingFind
      rw [if_neg he]
      exact ih

theorem pendingFind_set_other (p : List (intercacheRecordLocation × Nat))
    (loc y : intercacheRecordLocation) (d : Nat) (h : ¬y = loc) :
    pendingFind (pendingSet p loc d) y = pendingFind p y := by
  induction p with
  | nil =>
    unfold pendingSet pendingFind
    rw [if_neg (fun hh : loc = y => h hh.symm)]
    rfl
  | cons e t ih =>
    unfold pendingSet
    by_cases he : e.1 = loc
    · rw [if_pos he]
      unfold pendingFind
      rw [if_neg (fun hh : loc = y => h hh.symm), if_neg (he ▸ fun hh => h hh.symm)]
    · rw [if_neg he]
      unfold pendingFind
      by_cases hy : e.1 = y
      · rw [if_pos hy, if_pos hy]
      · rw [if_neg hy, if_neg hy]
        exact ih

theorem runSched_fold (reqs : List (intercacheRecordLocation × Nat × Nat))
    (p : List (intercacheRecordLocation × Nat))
    (loc : intercacheRecordLocation) :
    pendingFind (reqs.foldl schedStep p) loc =
      minFold (pendingFind p loc) (deadlinesFor loc reqs) := by
  induction reqs generalizing p with
  | nil => rfl
  | cons r t ih =>
    show pendingFind (t.foldl schedStep (schedStep p r)) loc = _
    by_cases hr : r.1 = loc
    · have hd : deadlinesFor loc (r :: t) =
          (r.2.1 + r.2.2) :: deadlinesFor loc t := by
        unfold deadlinesFor
        rw [List.filterMap_cons]
        rw [if_pos hr]
      rw [hd, ih]
      have hstep : pendingFind (schedStep p r) loc =
          match pendingFind p loc with
          | none => some (r.2.1 + r.2.2)
          | some e =>
            some (if r.2.1 + r.2.2 < e then r.2.1 + r.2.2 else e) := by
        unfold schedStep
        cases hf : pendingFind p r.1 with
        | none =>
          dsimp only
          rw [hr] at hf
          rw [hf, ← hr]
          exact pendingFind_set_self _ _ _
        | some e =>
          dsimp only
          rw [hr] at hf
          rw [hf]
          dsimp only
          by_cases hlt : r.2.1 + r.2.2 < e
          · rw [if_pos hlt, if_pos hlt, ← hr]
            exact pendingFind_set_self _ _ _
          · rw [if_neg hlt, if_neg hlt]
            exact hf
      rw [hstep]
      cases pendingFind p loc with
      | none => rfl
      | some e => rfl
    · have hd : deadlinesFor loc (r :: t) = deadlinesFor loc t := by
        unfold deadlinesFor
        rw [List.filterMap_cons]
        rw [if_neg hr]
      rw [hd, ih]
      have hstep : pendingFind (schedStep p r) loc = pendingFind p loc := by
        unfold schedStep
        cases hf : pendingFind p r.1 with
        | none =>
          dsimp only
          exact pendingFind_set_other _ _ _ _ (fun hh => hr hh.symm)
        | some e =>
          dsimp only
          by_cases hlt : r.2.1 + r.2.2 < e
          · rw [if_pos hlt]
            exact pendingFind_set_other _ _ _ _ (fun hh => hr hh.symm)
          · rw [if_neg hlt]
      rw [hstep]

theorem minFold_some (ds : List Nat) (m : Nat) :
    ∃ k, minFold (some m) ds = some k ∧ (k = m ∨ k ∈ ds) ∧ k ≤ m ∧
      ∀ d ∈ ds, k ≤ d := by
  induction ds generalizing m with
  | nil => exact ⟨m, rfl, Or.inl rfl, le_refl _, fun d hd => by cases hd⟩
  | cons d t ih =>
    unfold minFold
    dsimp only
    by_cases hlt : d < m
    · rw [if_pos hlt]
      obtain ⟨k, hk, hmem, hle, hall⟩ := ih d
      refine ⟨k, hk, ?_, le_of_lt (lt_of_le_of_lt hle hlt), ?_⟩
      · rcases hmem with rfl | hmem
        · exact Or.inr (List.mem_cons_self _ _)
        · exact Or.inr (List.mem_cons_of_mem _ hmem)
      · intro x hx
        rcases List.mem_cons.mp hx with rfl | hx2
        · exact hle
        · exact hall x hx2
    · rw [if_neg hlt]
      obtain ⟨k, hk, hmem, hle, hall⟩ := ih m
      refine ⟨k, hk, ?_, hle, ?_⟩
      · rcases hmem with rfl | hmem
        · exact Or.inl rfl
        · exact Or.inr (List.mem_cons_of_mem _ hmem)
      · intro x hx
        rcases List.mem_cons.mp hx with rfl | hx2
        · omega
        · exact hall x hx2

/-- Claim C9: after any request sequence, the pending deadline stored for a
location is exactly the minimum of the deadlines `now + timer` of the
requests for it seen so far (`none` when there were none), and a request
whose deadline is not strictly earlier than the stored one leaves the
scheduler state unchanged, so a later request with a larger delay never
postpones the eviction. -/
theorem schedPending_min (reqs : List (intercacheRecordLocation × Nat × Nat))
    (loc : intercacheRecordLocation) :
    (deadlinesFor loc reqs = [] → pendingFind (runSched reqs) loc = none) ∧
    (∀ d0 ds, deadlinesFor loc reqs = d0 :: ds →
      ∃ k, pendingFind (runSched reqs) loc = some k ∧
        k ∈ deadlinesFor loc reqs ∧ ∀ d ∈ deadlinesFor loc reqs, k ≤ d) ∧
    (∀ p now timer e, pendingFind p loc = some e → ¬now + timer < e →
      schedStep p (loc, now, timer) = p) := by
  refine ⟨?_, ?_, ?_⟩
  · intro hnil
    unfold runSched
    rw [runSched_fold reqs [] loc, hnil]
    rfl
  · intro d0 ds hcons
    unfold runSched
    rw [runSched_fold reqs [] loc, hcons]
    obtain ⟨k, hk, hmem, hle, hall⟩ := minFold_some ds d0
    refine ⟨k, hk, ?_, ?_⟩
    · rcases hmem with rfl | hmem
      · exact List.mem_cons_self _ _
      · exact List.mem_cons_of_mem _ hmem
    · intro d hd
      rcases List.mem_cons.mp hd with rfl | hd2
      · exact hle
      · exact hall d hd2
  · intro p now timer e hf hge
    unfold schedStep
    dsimp only
    rw [hf]
    dsimp only
    rw [if_neg hge]

/-- Witness for claim C9 on a concrete request sequence (delays 10, 3, 7 at
times 0, 1, 2 for the same location). -/
theorem schedPending_min_witness :
    (deadlinesFor { cache := 0, loc := { frontend := 0, key := 0 } }
        [({ cache := 0, loc := { frontend := 0, key := 0 } }, 0, 10),
          ({ cache := 0, loc := { frontend := 0, key := 0 } }, 1, 3),
          ({ cache := 0, loc := { frontend := 0, key := 0 } }, 2, 7)] = [] →
      pendingFind (runSched
        [({ cache := 0, loc := { frontend := 0, key := 0 } }, 0, 10),
          ({ cache := 0, loc := { frontend := 0, key := 0 } }, 1, 3),
          ({ cache := 0, loc := { frontend := 0, key := 0 } }, 2, 7)])
        { cache := 0, loc := { frontend := 0, key := 0 } } = none) ∧
    (∀ d0 ds, deadlinesFor { cache := 0, loc := { frontend := 0, key := 0 } }
        [({ cache := 0, loc := { frontend := 0, key := 0 } }, 0, 10),
          ({ cache := 0, loc := { frontend := 0, key := 0 } }, 1, 3),
          ({ cache := 0, loc := { frontend := 0, key := 0 } }, 2, 7)] =
        d0 :: ds →
      ∃ k, pendingFind (runSched
          [({ cache := 0, loc := { frontend := 0, key := 0 } }, 0, 10),
            ({ cache := 0, loc := { frontend := 0, key := 0 } }, 1, 3),
            ({ cache := 0, loc := { frontend := 0, key := 0 } }, 2, 7)])
          { cache := 0, loc := { frontend := 0, key := 0 } } = some k ∧
        k ∈ deadlinesFor { cache := 0, loc := { frontend := 0, key := 0 } }
          [({ cache := 0, loc := { frontend := 0, key := 0 } }, 0, 10),
            ({ cache := 0, loc := { frontend := 0, key := 0 } }, 1, 3),
            ({ cache := 0, loc := { frontend := 0, key := 0 } }, 2, 7)] ∧
        ∀ d ∈ deadlinesFor { cache := 0, loc := { frontend := 0, key := 0 } }
          [({ cache := 0, loc := { frontend := 0, key := 0 } }, 0, 10),
            ({ cache := 0, loc := { frontend := 0, key := 0 } }, 1, 3),
            ({ cache := 0, loc := { frontend := 0, key := 0 } }, 2, 7)],
          k ≤ d) ∧
    (∀ p now timer e,
      pendingFind p { cache := 0, loc := { frontend := 0, key := 0 } } =
        some e → ¬now + timer < e →
      schedStep p ({ cache := 0, loc := { frontend := 0, key := 0 } },
        now, timer) = p) :=
  schedPending_min _ _

/-! ## Record readiness and error propagation (`frontend.go`
`getGeneratedRecord`)

The record value guarded by its one-shot semaphore; errors are opaque codes
(`Nat`).  The populating caller runs `populate`; on error it stores the
error, evicts the location, then unblocks the gate, and finally (like every
caller) waits on the gate and returns `rec.populationError`. -/

theorem evictTail2_keys_nodup (st : CacheState) (now : Nat)
    (h : (st.buckets.map Prod.fst).Nodup) :
    ((evictTail2 st now).1.buckets.map Prod.fst).Nodup := by
  unfold evictTail2
  cases h1 : evictStep st now with
  | none => exact h
  | some r1 =>
    obtain ⟨st1, l1, reason1⟩ := r1
    dsimp only
    obtain ⟨-, hst1, -, -⟩ := evictStep_spec st now st1 l1 reason1 h1
    have hk1 : (st1.buckets.map Prod.fst).Nodup :=
      hst1 ▸ evictRun_keys_nodup st _ h
    cases h2 : evictStep st1 now with
    | none => exact hk1
    | some r2 =>
      obtain ⟨st2, l2, reason2⟩ := r2
      dsimp only
      obtain ⟨-, hst2, -, -⟩ := evictStep_spec st1 now st2 l2 reason2 h2
      exact hst2 ▸ evictRun_keys_nodup st1 _ hk1

/-- The record fields written by the populating caller and read by waiters. -/
structure RecordState where
  populationError : Option Nat
  unblocked : Bool
deriving DecidableEq, Repr

/-- The visible ordering of the three effects of the fresh-caller error
path. -/
inductive PopEvent where
  | storeError (e : Nat)
  | evictLocation (loc : recordLocation)
  | unblock
deriving DecidableEq, Repr

/-- Outcome of `Frontend.getGeneratedRecord` for the caller that created
the record (`fresh = true`): cache state after the call, final record
state, returned error, and the event trace in program order.  `popResult`
is the result of `populate` (`some e` on generator error, flush error or
`ErrEmptyRecord`). -/
def getGenerated (st0 : CacheState) (loc : recordLocation) (now : Nat)
    (popResult : Option Nat) :
    CacheState × RecordState × Option Nat × List PopEvent :=
  let r := getRecord st0 loc now
  match popResult with
  | some e =>
    let rec1 : RecordState := { populationError := some e, unblocked := false }
    let st1 := (evictLoc r.state loc).1
    let rec2 : RecordState := { rec1 with unblocked := true }
    (st1, rec2, rec2.populationError,
      [.storeError e, .evictLocation loc, .unblock])
  | none =>
    let rec2 : RecordState := { populationError := none, unblocked := true }
    (r.state, rec2, rec2.populationError, [.unblock])

/-- A waiter blocked on the record's gate: after `semaphore.Wait()` returns
it reads `rec.populationError`. -/
def waiterReturn (rec : RecordState) : Option Nat :=
  rec.populationError

/-- Claim C2: when the elected populator for a fresh key fails with `E`,
the error is stored in the record, the location is evicted from the bucket
before the gate is opened (the eviction event precedes the unblock event in
the trace), and both the populating caller and every waiter on the record's
gate receive the same error `E`. -/
theorem getGenerated_error (st0 : CacheState) (loc : recordLocation)
    (now : Nat) (e : Nat) (hwf : (st0.buckets.map Prod.fst).Nodup) :
    (getGenerated st0 loc now (some e)).2.1.populationError = some e ∧
    bucketFind (getGenerated st0 loc now (some e)).1.buckets loc = none ∧
    (getGenerated st0 loc now (some e)).2.2.1 = some e ∧
    waiterReturn (getGenerated st0 loc now (some e)).2.1 = some e ∧
    (getGenerated st0 loc now (some e)).2.1.unblocked = true ∧
    (getGenerated st0 loc now (some e)).2.2.2 =
      [.storeError e, .evictLocation loc, .unblock] := by
  have hkeys : (((getRecord st0 loc now).state).buckets.map Prod.fst).Nodup := by
    unfold getRecord
    cases hf : bucketFind st0.buckets loc with
    | none =>
      dsimp only
      refine evictTail2_keys_nodup _ now ?_
      rw [bucketSet_keys_of_none _ hf]
      rw [List.nodup_append]
      refine ⟨hwf, List.nodup_singleton _, ?_⟩
      intro a ha hmem
      rw [List.mem_singleton] at hmem
      subst hmem
      obtain ⟨m, hm⟩ := bucketFind_some_of_mem ha
      rw [hf] at hm
      cases hm
    | some m =>
      dsimp only
      refine evictTail2_keys_nodup _ now ?_
      rw [bucketSet_keys_of_some _ hf]
      exact hwf
  refine ⟨rfl, ?_, rfl, rfl, rfl, rfl⟩
  show bucketFind (evictLoc (getRecord st0 loc now).state loc).1.buckets loc =
    none
  exact evictRun_work_absent _ _ hkeys _ (List.mem_singleton.mpr rfl) rfl

/-- Witness for claim C2 at a concrete empty cache. -/
theorem getGenerated_error_witness :
    ((initCache 0 0 0).buckets.map Prod.fst).Nodup ∧
    ((getGenerated (initCache 0 0 0) { frontend := 0, key := 0 } 1
        (some 42)).2.1.populationError = some 42 ∧
      bucketFind (getGenerated (initCache 0 0 0) { frontend := 0, key := 0 } 1
        (some 42)).1.buckets { frontend := 0, key := 0 } = none ∧
      (getGenerated (initCache 0 0 0) { frontend := 0, key := 0 } 1
        (some 42)).2.2.1 = some 42 ∧
      waiterReturn (getGenerated (initCache 0 0 0) { frontend := 0, key := 0 } 1
        (some 42)).2.1 = some 42 ∧
      (getGenerated (initCache 0 0 0) { frontend := 0, key := 0 } 1
        (some 42)).2.1.unblocked = true ∧
      (getGenerated (initCache 0 0 0) { frontend := 0, key := 0 } 1
        (some 42)).2.2.2 =
        [.storeError 42, .evictLocation { frontend := 0, key := 0 },
          .unblock]) :=
  ⟨by decide,
    getGenerated_error (initCache 0 0 0) { frontend := 0, key := 0 } 1 42
      (by decide)⟩

/-! ## SHA-1 (`crypto/sha1`), used for component content hashes and the
aggregate record hash.  Words are `Nat` reduced modulo `2^32`. -/

def rotl32 (x k : Nat) : Nat := (x * 2 ^ k) % 2 ^ 32 + x / 2 ^ (32 - k)

def beBytes4 (x : Nat) : List Nat :=
  [x / 2 ^ 24 % 256, x / 2 ^ 16 % 256, x / 2 ^ 8 % 256, x % 256]

def beBytes8 (x : Nat) : List Nat := beBytes4 (x / 2 ^ 32) ++ beBytes4 x

/-- Merkle-Damgard padding: `0x80`, zeros to 56 mod 64, 8-byte big-endian
bit length. -/
def sha1Pad (msg : List Nat) : List Nat :=
  msg ++ 128 :: List.replicate ((119 - msg.length % 64) % 64) 0 ++
    beBytes8 (8 * msg.length)

def toWords : List Nat → List Nat
  | a :: b :: c :: d :: t =>
    (a * 2 ^ 24 + b * 2 ^ 16 + c * 2 ^ 8 + d) :: toWords t
  | _ => []

/-- Split into 16-word blocks; the fuel is the list length, which always
suffices since each step drops 16 elements of a non-empty list. -/
def chunk16Go : Nat → List Nat → List (List Nat)
  | 0, _ => []
  | _, [] => []
  | fuel + 1, a :: t => ((a :: t).take 16) :: chunk16Go fuel ((a :: t).drop 16)

def chunk16 (l : List Nat) : List (List Nat) := chunk16Go l.length l

def nextWord (w : List Nat) : Nat :=
  rotl32 ((w.getD (w.length - 3) 0) ^^^ (w.getD (w.length - 8) 0) ^^^
    (w.getD (w.length - 14) 0) ^^^ (w.getD (w.length - 16) 0)) 1

def extendWords (w : List Nat) : Nat → List Nat
  | 0 => w
  | k + 1 => extendWords (w ++ [nextWord w]) k

def sha1F (t b c d : Nat) : Nat :=
  if t < 20 then (b &&& c) ||| (((2 ^ 32 - 1) ^^^ b) &&& d)
  else if t < 40 then b ^^^ c ^^^ d
  else if t < 60 then (b &&& c) ||| (b &&& d) ||| (c &&& d)
  else b ^^^ c ^^^ d

def sha1K (t : Nat) : Nat :=
  if t < 20 then 0x5A827999
  else if t < 40 then 0x6ED9EBA1
  else if t < 60 then 0x8F1BBCDC
  else 0xCA62C1D6

def sha1Round (h : Nat × Nat × Nat × Nat × Nat) (tw : Nat × Nat) :
    Nat × Nat × Nat × Nat × Nat :=
  let temp := (rotl32 h.1 5 + sha1F tw.1 h.2.1 h.2.2.1 h.2.2.2.1 +
    h.2.2.2.2 + sha1K tw.1 + tw.2) % 2 ^ 32
  (temp, h.1, rotl32 h.2.1 30, h.2.2.1, h.2.2.2.1)

def processChunk (h : Nat × Nat × Nat × Nat × Nat) (block : List Nat) :
    Nat × Nat × Nat × Nat × Nat :=
  let w := extendWords block 64
  let r := ((List.range 80).zip w).foldl sha1Round h
  ((h.1 + r.1) % 2 ^ 32, (h.2.1 + r.2.1) % 2 ^ 32,
    (h.2.2.1 + r.2.2.1) % 2 ^ 32, (h.2.2.2.1 + r.2.2.2.1) % 2 ^ 32,
    (h.2.2.2.2 + r.2.2.2.2) % 2 ^ 32)

/-- SHA-1 digest of a byte sequence, as 20 bytes. -/
def sha1Bytes (msg : List Nat) : List Nat :=
  let blocks := chunk16 (toWords (sha1Pad msg))
  let h := blocks.foldl processChunk
    (0x67452301, 0xEFCDAB89, 0x98BADCFE, 0x10325476, 0xC3D2E1F0)
  beBytes4 h.1 ++ beBytes4 h.2.1 ++ beBytes4 h.2.2.1 ++ beBytes4 h.2.2.2.1 ++
    beBytes4 h.2.2.2.2

set_option maxRecDepth 10000 in
theorem sha1_empty_vector : sha1Bytes [] =
    [0xda, 0x39, 0xa3, 0xee, 0x5e, 0x6b, 0x4b, 0x0d, 0x32, 0x55, 0xbf, 0xef,
      0x95, 0x60, 0x18, 0x90, 0xaf, 0xd8, 0x07, 0x09] := by decide

set_option maxRecDepth 10000 in
theorem sha1_abc_vector : sha1Bytes [97, 98, 99] =
    [0xa9, 0x99, 0x3e, 0x36, 0x47, 0x06, 0x81, 0x6a, 0xba, 0x3e, 0x25, 0x71,
      0x78, 0x50, 0xc2, 0x6c, 0x9c, 0xd0, 0xd8, 0x9d] := by decide

/-! ## Record writer and `populate` (`writer.go`, `frontend.go`)

A generator run is a list of writer operations; the deflate encoder is an
uninterpreted function `compress` per frame (library code outside the
repository), fed the frame's raw bytes.  A component carries the compressed
bytes (frames own them, references own none), the content hash and the
frame descriptor, exactly the data `populate` reads back. -/

/-- One writer call made by a generator: a raw `Write`, an `Include` of a
ready record (contributing its aggregate hash and descriptor), or a
`Bind`/`BindJSON` (flushes and registers a dependency, appends nothing). -/
inductive WriterOp where
  | write (p : List Nat)
  | incl (hash : List Nat) (fd : FrameDescriptor)
  | bindOnly
deriving DecidableEq, Repr

/-- A component as stored in the record: a deflate frame owning its
compressed buffer, or a reference to another record. -/
inductive Component where
  | frame (data : List Nat) (hash : List Nat) (fd : FrameDescriptor)
  | reference (hash : List Nat) (fd : FrameDescriptor)
deriving DecidableEq, Repr

/-- `component.Size()`: references store no data of their own. -/
def compSize : Component → Nat
  | .frame data _ _ => data.length
  | .reference _ _ => 0

def compHash : Component → List Nat
  | .frame _ hash _ => hash
  | .reference hash _ => hash

def compFd : Component → FrameDescriptor
  | .frame _ _ fd => fd
  | .reference _ fd => fd

/-- `RecordWriter` state: the compressing flag, the raw bytes of the open
frame (which drive the frame descriptor and the Adler hasher), and the
component list in insertion order. -/
structure WriterState where
  compressing : Bool
  currentRaw : List Nat
  comps : List Component
deriving DecidableEq, Repr

/-- `RecordWriter.flush`: close the open deflate frame, if any, and append
it as a buffer component with its SHA-1 content hash and descriptor. -/
def wFlush (compress : List Nat → List Nat) (w : WriterState) : WriterState :=
  if w.compressing then
    { compressing := false
      currentRaw := w.currentRaw
      comps := w.comps ++
        [.frame (compress w.currentRaw) (sha1Bytes (compress w.currentRaw))
          { checksum := adler32 w.currentRaw
            size := w.currentRaw.length % 2 ^ 32 }] }
  else w

/-- One writer call.  `Write` lazily opens (or resets) the frame even for a
zero-length slice; `Include` flushes, then appends a reference component;
`Bind` only flushes. -/
def runWriterOp (compress : List Nat → List Nat) (w : WriterState) :
    WriterOp → WriterState
  | .write p =>
    { compressing := true
      currentRaw := if w.compressing then w.currentRaw ++ p else p
      comps := w.comps }
  | .incl hash fd =>
    let w2 := wFlush compress w
    { w2 with comps := w2.comps ++ [.reference hash fd] }
  | .bindOnly => wFlush compress w

def runWriter (compress : List Nat → List Nat) (ops : List WriterOp) :
    WriterState :=
  ops.foldl (runWriterOp compress) ⟨false, [], []⟩

/-- The population errors of interest here. -/
inductive PopulateError where
  | genError (e : Nat)
  | emptyRecord
deriving DecidableEq, Repr

structure PopulatedRecord where
  comps : List Component
  hash : List Nat
  frameDescriptor : FrameDescriptor
  memoryUsed : Nat
deriving DecidableEq, Repr

/-- The aggregate hash exactly as the loop in `Frontend.populate` computes
it: a single component's hash is copied through; otherwise the streaming
SHA-1 of each component hash in order. -/
def recordHash (cs : List Component) : List Nat :=
  match cs with
  | [] => []
  | [c] => compHash c
  | cs => sha1Bytes (cs.foldl (fun acc cc => acc ++ compHash cc) [])

/-- The aggregate frame descriptor: initialised from the head component
(`rec.frameDescriptor = rw.data.GetFrameDescriptor()`) and folded with
`Append` over the remaining components (the `first` flag skips the head). -/
def recordFd (cs : List Component) : FrameDescriptor :=
  match cs with
  | [] => { checksum := 0, size := 0 }
  | c :: rest => rest.foldl (fun fd cc => fdAppend fd (compFd cc)) (compFd c)

def recordMemory (cs : List Component) : Nat := (cs.map compSize).sum

/-- `Frontend.populate`: run the generator, final-flush, fail with
`ErrEmptyRecord` when no component was appended, otherwise build the
record. -/
def populateModel (compress : List Nat → List Nat)
    (gen : Except Nat (List WriterOp)) :
    Except PopulateError PopulatedRecord :=
  match gen with
  | .error e => .error (.genError e)
  | .ok ops =>
    let w := wFlush compress (runWriter compress ops)
    match w.comps with
    | [] => .error .emptyRecord
    | cs =>
      .ok { comps := cs, hash := recordHash cs, frameDescriptor := recordFd cs
            memoryUsed := recordMemory cs }

/-- Total raw bytes the generator wrote directly. -/
def writtenBytes (ops : List WriterOp) : Nat :=
  (ops.map fun op =>
    match op with
    | .write p => p.length
    | _ => 0).sum

/-- Number of `Include` calls the generator made. -/
def includeCount (ops : List WriterOp) : Nat :=
  (ops.map fun op =>
    match op with
    | .incl _ _ => 1
    | _ => 0).sum

/-- An op that appends a component (possibly empty): any `Write` (even of
zero bytes) or any `Include`. -/
def producesComponent : WriterOp → Bool
  | .write _ => true
  | .incl _ _ => true
  | .bindOnly => false

theorem wFlush_comps_nil (compress : List Nat → List Nat) (w : WriterState) :
    (wFlush compress w).comps = [] ↔ w.comps = [] ∧ w.compressing = false := by
  unfold wFlush
  by_cases hc : w.compressing
  · rw [if_pos hc]
    simp [hc]
  · rw [if_neg hc]
    simp [hc]


theorem runWriter_from_empty (compress : List Nat → List Nat)
    (ops : List WriterOp) (w : WriterState) :
    ((ops.foldl (runWriterOp compress) w).comps = [] ∧
        (ops.foldl (runWriterOp compress) w).compressing = false) ↔
      (w.comps = [] ∧ w.compressing = false ∧
        ∀ op ∈ ops, producesComponent op = false) := by
  induction ops generalizing w with
  | nil => simp
  | cons op rest ih =>
    rw [List.foldl_cons, ih]
    cases op with
    | write p =>
      simp only [runWriterOp, producesComponent]
      constructor
      · rintro ⟨-, h, -⟩
        cases h
      · rintro ⟨-, -, hall⟩
        have := hall (.write p) (List.mem_cons_self _ _)
        cases this
    | incl hash fd =>
      simp only [runWriterOp, producesComponent]
      constructor
      · rintro ⟨h, -, -⟩
        exact absurd h (by simp)
      · rintro ⟨-, -, hall⟩
        have := hall (.incl hash fd) (List.mem_cons_self _ _)
        cases this
    | bindOnly =>
      simp only [runWriterOp, producesComponent]
      rw [wFlush_comps_nil]
      constructor
      · rintro ⟨⟨h1, h2⟩, -, h4⟩
        refine ⟨h1, h2, ?_⟩
        intro op hop
        rcases List.mem_cons.mp hop with rfl | hop2
        · rfl
        · exact h4 op hop2
      · rintro ⟨h1, h2, hall⟩
        have hflush : (wFlush compress w).compressing = false := by
          unfold wFlush
          by_cases hc : w.compressing
          · rw [if_pos hc]
          · rw [if_neg hc]
            exact h2
        exact ⟨⟨h1, h2⟩, hflush, fun op hop =>
          hall op (List.mem_cons_of_mem _ hop)⟩

/-- Claim C6 (amended): the population of an error-free generator run
fails with `ErrEmptyRecord` exactly when no component was appended, i.e.
when the generator made no `Write` call (of any length, including a
zero-length one) and no `Include`.  A zero-length `Write` still opens a
deflate frame and therefore prevents the error. -/
theorem populate_emptyRecord_iff (compress : List Nat → List Nat)
    (ops : List WriterOp) :
    populateModel compress (Except.ok ops) =
        Except.error PopulateError.emptyRecord ↔
      ∀ op ∈ ops, producesComponent op = false := by
  simp only [populateModel]
  cases hw : (wFlush compress (runWriter compress ops)).comps with
  | nil =>
    dsimp only
    constructor
    · intro h
      have h2 := (wFlush_comps_nil compress (runWriter compress ops)).mp hw
      exact ((runWriter_from_empty compress ops ⟨false, [], []⟩).mp
        ⟨h2.1, h2.2⟩).2.2
    · intro h
      rfl
  | cons c rest =>
    dsimp only
    constructor
    · intro h
      cases h
    · intro hall
      exfalso
      have h2 := (runWriter_from_empty compress ops ⟨false, [], []⟩).mpr
        ⟨rfl, rfl, hall⟩
      have h3 := (wFlush_comps_nil compress (runWriter compress ops)).mpr
        ⟨h2.1, h2.2⟩
      rw [hw] at h3
      cases h3

/-- Claim C6 counterexample: a generator that calls `Write` once with a
zero-length slice writes no bytes and includes no record, yet population
succeeds (the flush appends a frame component), contradicting the claim
that such a run fails with `ErrEmptyRecord`. -/
theorem populate_emptyRecord_cex :
    writtenBytes [WriterOp.write []] = 0 ∧
      includeCount [WriterOp.write []] = 0 ∧
      populateModel id (Except.ok [WriterOp.write []]) ≠
        Except.error PopulateError.emptyRecord := by
  refine ⟨rfl, rfl, ?_⟩
  intro h
  simp [populateModel, runWriter, runWriterOp, wFlush] at h

/-- Witness for the amended claim C6: a generator that only binds appends
nothing and fails with `ErrEmptyRecord`. -/
theorem populate_emptyRecord_witness :
    populateModel id (Except.ok [WriterOp.bindOnly]) =
      Except.error PopulateError.emptyRecord :=
  (populate_emptyRecord_iff id [WriterOp.bindOnly]).mpr (by decide)

theorem foldl_append_hash (cs : List Component) (acc : List Nat) :
    cs.foldl (fun a cc => a ++ compHash cc) acc =
      acc ++ (cs.map compHash).flatten := by
  induction cs generalizing acc with
  | nil => simp
  | cons c t ih =>
    simp only [List.foldl_cons, List.map_cons, List.flatten_cons, ih,
      List.append_assoc]

/-- Claim C7: the aggregate hash of a populated record is the single
component's content hash when there is exactly one component, and the
SHA-1 of the concatenation of the component hashes in insertion order when
there are several; `populate` stores exactly this value. -/
theorem populate_aggregate_hash (cs : List Component) (hne : cs ≠ []) :
    (∀ c, cs = [c] → recordHash cs = compHash c) ∧
      (1 < cs.length →
        recordHash cs = sha1Bytes ((cs.map compHash).flatten)) ∧
      (∀ compress ops r,
        populateModel compress (Except.ok ops) = Except.ok r →
        r.hash = recordHash r.comps) := by
  refine ⟨?_, ?_, ?_⟩
  · rintro c rfl
    rfl
  · intro hlen
    rcases cs with - | ⟨c1, rest⟩
    · exact absurd rfl hne
    · rcases rest with - | ⟨c2, t⟩
      · simp at hlen
      · show sha1Bytes
          ((c1 :: c2 :: t).foldl (fun a cc => a ++ compHash cc) []) = _
        rw [foldl_append_hash]
        rfl
  · intro compress ops r h
    simp only [populateModel] at h
    cases hw : (wFlush compress (runWriter compress ops)).comps with
    | nil =>
      rw [hw] at h
      cases h
    | cons c rest =>
      rw [hw] at h
      dsimp only at h
      injection h with h
      rw [← h]

/-- Witness for claim C7 at a concrete two-component list. -/
theorem populate_aggregate_hash_witness :
    ([Component.reference [1] { checksum := 0, size := 0 },
        Component.reference [2] { checksum := 0, size := 0 }] :
      List Component) ≠ [] ∧
    ((∀ c, ([Component.reference [1] { checksum := 0, size := 0 },
          Component.reference [2] { checksum := 0, size := 0 }] :
          List Component) = [c] →
        recordHash [Component.reference [1] { checksum := 0, size := 0 },
          Component.reference [2] { checksum := 0, size := 0 }] = compHash c) ∧
      (1 < ([Component.reference [1] { checksum := 0, size := 0 },
          Component.reference [2] { checksum := 0, size := 0 }] :
          List Component).length →
        recordHash [Component.reference [1] { checksum := 0, size := 0 },
          Component.reference [2] { checksum := 0, size := 0 }] =
          sha1Bytes ((([Component.reference [1] { checksum := 0, size := 0 },
            Component.reference [2] { checksum := 0, size := 0 }] :
            List Component).map compHash).flatten)) ∧
      (∀ compress ops r,
        populateModel compress (Except.ok ops) = Except.ok r →
        r.hash = recordHash r.comps)) :=
  ⟨by decide,
    populate_aggregate_hash
      [Component.reference [1] { checksum := 0, size := 0 },
        Component.reference [2] { checksum := 0, size := 0 }] (by decide)⟩

/-! ## Record streaming (`record.go`, `components.go`) and the HTTP
adapter (`frontend.go` `WriteHTTP`)

For streaming, a component is a deflate frame owning compressed bytes or a
reference to another record's component list; `Record.WriteTo` writes the
components in order, references expanding recursively. -/

/-- A component as seen by the streaming paths. -/
inductive streamComp where
  | buf (data : List Nat)
  | ref (comps : List streamComp)

mutual

/-- `component.WriteTo`: a buffer writes its bytes, a reference writes the
referenced record. -/
def compBytes : streamComp → List Nat
  | .buf data => data
  | .ref cs => compsBytes cs

/-- `Record.WriteTo`: write every component in insertion order. -/
def compsBytes : List streamComp → List Nat
  | [] => []
  | c :: t => compBytes c ++ compsBytes t

end

/-- A populated record as consumed by `WriteHTTP`: component list,
aggregate Adler-32 (`rec.checksum`, a `uint32`) and ETag. -/
structure HRecord where
  comps : List streamComp
  checksum : Nat
  eTag : String

/-- The compression-level bits written into the zlib header
(`switch CompressionLevel` in `WriteHTTP`); `none` is the
unknown-compression-level error. -/
def levelBits (lvl : Int) : Option Nat :=
  if lvl = -2 ∨ lvl = 0 ∨ lvl = 1 then some 0
  else if lvl = 2 ∨ lvl = 3 ∨ lvl = 4 ∨ lvl = 5 then some 1
  else if lvl = 6 ∨ lvl = -1 then some 2
  else if lvl = 7 ∨ lvl = 8 ∨ lvl = 9 then some 3
  else none

/-- `Frontend.WriteHTTP` after the record is ready: on an `If-None-Match`
hit reply 304 with no body; otherwise write the 2-byte zlib header (byte 0
`0x78`, byte 1 level bits in bits 6-7 plus the mod-31 adjustment — the
`uint8` addition cannot wrap since `bits*64 + 31 ≤ 223`), the record's
frames, and the 6-byte trailer (`0x03 0x00` and the big-endian aggregate
Adler-32).  Returns `(status, body, n)`. -/
def writeHTTP (lvl : Int) (inm : String) (rec : HRecord) :
    Except Unit (Nat × List Nat × Nat) :=
  if inm = rec.eTag then .ok (304, [], 0)
  else
    match levelBits lvl with
    | none => .error ()
    | some bits =>
      let b1 := bits * 64
      let b1 := b1 + (31 - (0x78 * 256 + b1) % 31)
      let frames := compsBytes rec.comps
      .ok (200, 0x78 :: b1 :: (frames ++ (0x03 :: 0x00 :: beBytes4 rec.checksum)),
        2 + frames.length + 6)

theorem levelBits_le {lvl : Int} {bits : Nat} (h : levelBits lvl = some bits) :
    bits ≤ 3 := by
  unfold levelBits at h
  split_ifs at h <;> injection h with h <;> omega

/-- Claim C8: when `WriteHTTP` serves a body, the bytes written are exactly
the 2-byte zlib header (byte 0 `0x78`; byte 1 carries the level mapping in
its top two bits and makes the big-endian 16-bit header value divisible by
31), the record's compressed frames in component order, and the 6-byte
trailer `0x03 0x00` followed by the big-endian aggregate Adler-32 of the
uncompressed content; the returned count is 2 + frame bytes + 6. -/
theorem writeHTTP_layout (lvl : Int) (inm : String) (rec : HRecord)
    (content : List Nat) (bits : Nat) (hmatch : inm ≠ rec.eTag)
    (hlvl : levelBits lvl = some bits)
    (hck : rec.checksum = adler32 content) :
    writeHTTP lvl inm rec =
      .ok (200,
        0x78 :: (bits * 64 + (31 - (0x78 * 256 + bits * 64) % 31)) ::
          (compsBytes rec.comps ++
            (0x03 :: 0x00 :: beBytes4 (adler32 content))),
        2 + (compsBytes rec.comps).length + 6) ∧
      (0x78 * 256 + (bits * 64 + (31 - (0x78 * 256 + bits * 64) % 31))) % 31
        = 0 ∧
      (bits * 64 + (31 - (0x78 * 256 + bits * 64) % 31)) / 64 = bits ∧
      bits * 64 + (31 - (0x78 * 256 + bits * 64) % 31) < 256 := by
  have hb := levelBits_le hlvl
  refine ⟨?_, by omega, by omega, by omega⟩
  unfold writeHTTP
  rw [if_neg hmatch, hlvl, hck]

/-- Witness for claim C8 at a concrete record and level 6. -/
theorem writeHTTP_layout_witness :
    ("a" ≠ ("b" : String)) ∧
    (writeHTTP 6 "a"
        { comps := [streamComp.buf [9, 9], streamComp.ref [streamComp.buf [7]]],
          checksum := adler32 [1, 2], eTag := "b" } =
      .ok (200,
        0x78 :: (2 * 64 + (31 - (0x78 * 256 + 2 * 64) % 31)) ::
          (compsBytes [streamComp.buf [9, 9],
              streamComp.ref [streamComp.buf [7]]] ++
            (0x03 :: 0x00 :: beBytes4 (adler32 [1, 2]))),
        2 + (compsBytes [streamComp.buf [9, 9],
          streamComp.ref [streamComp.buf [7]]]).length + 6) ∧
      (0x78 * 256 + (2 * 64 + (31 - (0x78 * 256 + 2 * 64) % 31))) % 31 = 0 ∧
      (2 * 64 + (31 - (0x78 * 256 + 2 * 64) % 31)) / 64 = 2 ∧
      2 * 64 + (31 - (0x78 * 256 + 2 * 64) % 31) < 256) :=
  ⟨by decide,
    writeHTTP_layout 6 "a"
      { comps := [streamComp.buf [9, 9], streamComp.ref [streamComp.buf [7]]],
        checksum := adler32 [1, 2], eTag := "b" }
      [1, 2] 2 (by decide) (by decide) rfl⟩

/-! ## Reader equivalence (`Record.NewReader` / `recordReader.Read`)

`recordReader` holds the reader of the current component and the remaining
component nodes; `Read` suppresses the inner `io.EOF`, advancing to the
next component on the following call.  Reads are modelled with a recursion
fuel (first argument); the measure `readerMeasure` bounds the recursion
depth, so any fuel at least the measure gives the Go behaviour. -/

mutual

/-- Unconsumed bytes plus structure: an upper bound on reader recursion. -/
def compMeasure : streamComp → Nat
  | .buf data => data.length + 1
  | .ref cs => compsMeasure cs + 1

def compsMeasure : List streamComp → Nat
  | [] => 0
  | c :: t => compMeasure c + compsMeasure t

end

/-- Reader state: `bytes.Reader` over a buffer, or a `recordReader` with
its optional current inner reader and remaining component nodes. -/
inductive RReader where
  | bufR (remaining : List Nat)
  | recR (current : Option RReader) (next : List streamComp)

/-- `component.NewReader`: a buffer yields a `bytes.Reader`; a reference
yields the referenced record's reader (`Record.NewReader`). -/
def compReader : streamComp → RReader
  | .buf data => .bufR data
  | .ref [] => .recR none []
  | .ref (c :: t) => .recR (some (compReader c)) t

/-- `Record.NewReader`: current is the first component's reader, `next`
the remaining component nodes. -/
def newRecordReader : List streamComp → RReader
  | [] => .recR none []
  | c :: t => .recR (some (compReader c)) t

def readerMeasure : RReader → Nat
  | .bufR rem => rem.length + 1
  | .recR none next => compsMeasure next + 1
  | .recR (some r) next => readerMeasure r + compsMeasure next + 1

/-- Bytes a reader will still deliver. -/
def readerContent : RReader → List Nat
  | .bufR rem => rem
  | .recR none next => compsBytes next
  | .recR (some r) next => readerContent r ++ compsBytes next

/-- One `Read(p)` call with `cap = len(p)`, under a fuel bound: returns the
bytes read, the successor state, and whether `io.EOF` was returned.
`bytes.Reader` reports EOF before looking at `p`; `recordReader` returns
`(0, nil)` for an empty `p`, reports EOF only with no current reader and no
next component, and otherwise reads the current (or freshly created)
component reader, converting its EOF into a nil error with `current`
cleared. -/
def readF : Nat → RReader → Nat → Option (List Nat × RReader × Bool)
  | 0, _, _ => none
  | _ + 1, .bufR rem, cap =>
    match rem with
    | [] => some ([], .bufR [], true)
    | _ :: _ =>
      if cap = 0 then some ([], .bufR rem, false)
      else some (rem.take cap, .bufR (rem.drop cap), false)
  | f + 1, .recR cur next, cap =>
    if cap = 0 then some ([], .recR cur next, false)
    else
      match cur, next with
      | none, [] => some ([], .recR none [], true)
      | none, c :: t =>
        (readF f (compReader c) cap).map fun r =>
          if r.2.2 then (r.1, .recR none t, false)
          else (r.1, .recR (some r.2.1) t, false)
      | some r0, nx =>
        (readF f r0 cap).map fun r =>
          if r.2.2 then (r.1, .recR none nx, false)
          else (r.1, .recR (some r.2.1) nx, false)

/-- Reading until EOF (`io.ReadAll` loop). -/
def drainF : Nat → RReader → Nat → Option (List Nat)
  | 0, _, _ => none
  | f + 1, r, cap =>
    match readF (f + 1) r cap with
    | none => none
    | some (chunk, r2, eof) =>
      if eof then some [] else (drainF f r2 cap).map (chunk ++ ·)

theorem compMeasure_pos (c : streamComp) : 0 < compMeasure c := by
  cases c <;> simp [compMeasure]

theorem readerMeasure_pos (r : RReader) : 0 < readerMeasure r := by
  cases r with
  | bufR rem => simp [readerMeasure]
  | recR cur next => cases cur <;> simp [readerMeasure]

theorem compReader_spec (n : Nat) : ∀ c : streamComp, compMeasure c ≤ n →
    readerMeasure (compReader c) ≤ compMeasure c ∧
      readerContent (compReader c) = compBytes c := by
  induction n with
  | zero =>
    intro c hc
    exact absurd hc (by have := compMeasure_pos c; omega)
  | succ k ih =>
    intro c hc
    cases c with
    | buf data => exact ⟨le_refl _, rfl⟩
    | ref cs =>
      cases cs with
      | nil => exact ⟨le_refl _, rfl⟩
      | cons c0 t =>
        have h0 : compMeasure c0 ≤ k := by
          have h1 : compMeasure (.ref (c0 :: t)) =
              compMeasure c0 + compsMeasure t + 1 := by
            simp [compMeasure, compsMeasure]
          omega
        obtain ⟨ihm, ihc⟩ := ih c0 h0
        constructor
        · show readerMeasure (.recR (some (compReader c0)) t) ≤ _
          show readerMeasure (compReader c0) + compsMeasure t + 1 ≤
            compsMeasure (c0 :: t) + 1
          show _ ≤ compMeasure c0 + compsMeasure t + 1
          omega
        · show readerContent (.recR (some (compReader c0)) t) = _
          show readerContent (compReader c0) ++ compsBytes t = _
          rw [ihc]
          rfl

theorem newRecordReader_spec (cs : List streamComp) :
    readerMeasure (newRecordReader cs) ≤ compsMeasure cs + 1 ∧
      readerContent (newRecordReader cs) = compsBytes cs := by
  cases cs with
  | nil => exact ⟨le_refl _, rfl⟩
  | cons c t =>
    obtain ⟨hm, hc⟩ := compReader_spec (compMeasure c) c (le_refl _)
    constructor
    · show readerMeasure (compReader c) + compsMeasure t + 1 ≤
        compMeasure c + compsMeasure t + 1
      omega
    · show readerContent (compReader c) ++ compsBytes t = _
      rw [hc]
      rfl

theorem readF_step (fuel : Nat) : ∀ (r : RReader) (cap : Nat),
    readerMeasure r ≤ fuel → 0 < cap →
    ∃ chunk r2 eof, readF fuel r cap = some (chunk, r2, eof) ∧
      readerContent r = chunk ++ readerContent r2 ∧
      (eof = true → chunk = [] ∧ readerContent r = []) ∧
      (eof = false → readerMeasure r2 < readerMeasure r) := by
  induction fuel with
  | zero =>
    intro r cap hm hcap
    exact absurd hm (by have := readerMeasure_pos r; omega)
  | succ f ih =>
    intro r cap hm hcap
    cases r with
    | bufR rem =>
      cases rem with
      | nil =>
        exact ⟨[], .bufR [], true, rfl, rfl, fun _ => ⟨rfl, rfl⟩,
          fun h => by cases h⟩
      | cons b bt =>
        refine ⟨(b :: bt).take cap, .bufR ((b :: bt).drop cap), false, ?_,
          ?_, ?_, ?_⟩
        · show (if cap = 0 then _ else _) = _
          rw [if_neg (by omega)]
        · show b :: bt = (b :: bt).take cap ++ (b :: bt).drop cap
          rw [List.take_append_drop]
        · intro h
          cases h
        · intro h
          show ((b :: bt).drop cap).length + 1 < (b :: bt).length + 1
          rw [List.length_drop]
          simp only [List.length_cons]
          omega
    | recR cur next =>
      cases cur with
      | none =>
        cases next with
        | nil =>
          refine ⟨[], .recR none [], true, ?_, rfl, ?_, ?_⟩
          · show (if cap = 0 then _ else _) = _
            rw [if_neg (by omega)]
          · intro h
            exact ⟨rfl, rfl⟩
          · intro h
            cases h
        | cons c t =>
          have hcm : compMeasure c ≤ f := by
            have h1 : readerMeasure (.recR none (c :: t)) =
                compMeasure c + compsMeasure t + 1 := by
              simp [readerMeasure, compsMeasure]
            omega
          obtain ⟨hrm, -⟩ := compReader_spec (compMeasure c) c (le_refl _)
          obtain ⟨chunk, r2, eof, hread, hcont, heof, hlt⟩ :=
            ih (compReader c) cap (le_trans hrm hcm) hcap
          obtain ⟨-, hcc⟩ := compReader_spec (compMeasure c) c (le_refl _)
          cases eof with
          | true =>
            obtain ⟨hch, hce⟩ := heof rfl
            refine ⟨chunk, .recR none t, false, ?_, ?_, ?_, ?_⟩
            · show (if cap = 0 then _ else _) = _
              rw [if_neg (by omega)]
              show (readF f (compReader c) cap).map _ = _
              rw [hread]
              simp
            · show compsBytes (c :: t) = chunk ++ compsBytes t
              rw [hch]
              show compBytes c ++ compsBytes t = [] ++ compsBytes t
              rw [← hcc, hce]
            · intro h
              cases h
            · intro h
              show compsMeasure t + 1 < compsMeasure (c :: t) + 1
              show compsMeasure t + 1 < compMeasure c + compsMeasure t + 1
              have := compMeasure_pos c
              omega
          | false =>
            refine ⟨chunk, .recR (some r2) t, false, ?_, ?_, ?_, ?_⟩
            · show (if cap = 0 then _ else _) = _
              rw [if_neg (by omega)]
              show (readF f (compReader c) cap).map _ = _
              rw [hread]
              simp
            · show compsBytes (c :: t) = chunk ++ (readerContent r2 ++ compsBytes t)
              show compBytes c ++ compsBytes t = _
              rw [← hcc, hcont, List.append_assoc]
            · intro h
              cases h
            · intro h
              show readerMeasure r2 + compsMeasure t + 1 <
                compMeasure c + compsMeasure t + 1
              have h2 := hlt rfl
              omega
      | some r0 =>
        have hr0 : readerMeasure r0 ≤ f := by
          have h1 : readerMeasure (.recR (some r0) next) =
              readerMeasure r0 + compsMeasure next + 1 := rfl
          omega
        obtain ⟨chunk, r2, eof, hread, hcont, heof, hlt⟩ := ih r0 cap hr0 hcap
        cases eof with
        | true =>
          obtain ⟨hch, hce⟩ := heof rfl
          refine ⟨chunk, .recR none next, false, ?_, ?_, ?_, ?_⟩
          · show (if cap = 0 then _ else _) = _
            rw [if_neg (by omega)]
            show (readF f r0 cap).map _ = _
            rw [hread]
            simp
          · show readerContent r0 ++ compsBytes next = chunk ++ compsBytes next
            rw [hce, hch]
          · intro h
            cases h
          · intro h
            show compsMeasure next + 1 < readerMeasure r0 + compsMeasure next + 1
            have := readerMeasure_pos r0
            omega
        | false =>
          refine ⟨chunk, .recR (some r2) next, false, ?_, ?_, ?_, ?_⟩
          · show (if cap = 0 then _ else _) = _
            rw [if_neg (by omega)]
            show (readF f r0 cap).map _ = _
            rw [hread]
            simp
          · show readerContent r0 ++ compsBytes next =
              chunk ++ (readerContent r2 ++ compsBytes next)
            rw [hcont, List.append_assoc]
          · intro h
            cases h
          · intro h
            show readerMeasure r2 + compsMeasure next + 1 <
              readerMeasure r0 + compsMeasure next + 1
            have h2 := hlt rfl
            omega

theorem drainF_content (fuel : Nat) : ∀ (r : RReader) (cap : Nat),
    readerMeasure r ≤ fuel → 0 < cap →
    drainF fuel r cap = some (readerContent r) := by
  induction fuel with
  | zero =>
    intro r cap hm hcap
    exact absurd hm (by have := readerMeasure_pos r; omega)
  | succ f ih =>
    intro r cap hm hcap
    obtain ⟨chunk, r2, eof, hread, hcont, heof, hlt⟩ :=
      readF_step (f + 1) r cap hm hcap
    show (match readF (f + 1) r cap with
      | none => none
      | some (chunk, r2, eof) =>
        if eof then some [] else (drainF f r2 cap).map (chunk ++ ·)) = _
    rw [hread]
    cases eof with
    | true =>
      obtain ⟨-, hce⟩ := heof rfl
      rw [hce]
      rfl
    | false =>
      have h2 := hlt rfl
      show (if false = true then some [] else
        (drainF f r2 cap).map (chunk ++ ·)) = some (readerContent r)
      rw [if_neg Bool.false_ne_true, ih r2 cap (by omega) hcap]
      show some (chunk ++ readerContent r2) = _
      rw [← hcont]

theorem compsBytes_flatten (cs : List streamComp) :
    compsBytes cs = (cs.map compBytes).flatten := by
  induction cs with
  | nil => rfl
  | cons c t ih =>
    show compBytes c ++ compsBytes t = _
    rw [ih]
    rfl

/-- Claim C10: the bytes written by `Record.WriteTo` and the bytes obtained
by reading a `Record.NewReader` stream to EOF coincide: both are the
components' compressed bytes concatenated in insertion order. -/
theorem record_writeTo_eq_reader (cs : List streamComp) (fuel cap : Nat)
    (hfuel : readerMeasure (newRecordReader cs) ≤ fuel) (hcap : 0 < cap) :
    drainF fuel (newRecordReader cs) cap = some (compsBytes cs) ∧
      compsBytes cs = (cs.map compBytes).flatten := by
  obtain ⟨-, hc⟩ := newRecordReader_spec cs
  refine ⟨?_, compsBytes_flatten cs⟩
  rw [drainF_content fuel (newRecordReader cs) cap hfuel hcap, hc]

/-- Witness for claim C10 at a concrete two-level record. -/
theorem record_writeTo_eq_reader_witness :
    readerMeasure (newRecordReader
        [streamComp.buf [1, 2], streamComp.ref [streamComp.buf [3]],
          streamComp.buf []]) ≤ 20 ∧ 0 < 1 ∧
    (drainF 20 (newRecordReader
        [streamComp.buf [1, 2], streamComp.ref [streamComp.buf [3]],
          streamComp.buf []]) 1 =
      some (compsBytes [streamComp.buf [1, 2],
        streamComp.ref [streamComp.buf [3]], streamComp.buf []]) ∧
      compsBytes [streamComp.buf [1, 2], streamComp.ref [streamComp.buf [3]],
          streamComp.buf []] =
        (([streamComp.buf [1, 2], streamComp.ref [streamComp.buf [3]],
          streamComp.buf []].map compBytes)).flatten) :=
  ⟨by simp [newRecordReader, compReader, readerMeasure, compMeasure,
      compsMeasure], by norm_num,
    record_writeTo_eq_reader _ 20 1
      (by simp [newRecordReader, compReader, readerMeasure, compMeasure,
        compsMeasure]) (by norm_num)⟩

end Recache


